import Mathlib

/-!
# Verification of the OD-pair routing core (`Code/calc_functions.py`)

This file gives a shallow embedding of the routing and trip-classification
functions of the repository and proves the specified properties about them.

Modelling conventions:

* Stations and line identifiers are strings, as in the source.
* The `networkx.MultiGraph` is modelled by `Graph`: a node list plus an
  adjacency association list `node ↦ (neighbor ↦ (edge key ↦ edge data))`,
  mirroring the nested-dict adjacency structure that
  `G[u]`, `G[u][v]`, `G[u][v][k]` traverse.  Iteration order of the
  association lists models Python dict insertion order.
* Edge weights are natural numbers (the graph builder in `Main.py` uses
  non-negative second durations, defaulting to 300).
* Python dictionaries keyed by `G.nodes()` (`distances`, `previous`,
  `previous_lines`, `previous_edge_keys`) are modelled as total functions;
  a read at a key outside the dictionary's domain raises `KeyError` in
  Python, which the embedding reproduces by an explicit membership check at
  exactly the read sites where the key can lie outside the domain
  (`distances[target]`, the reconstruction reads, `line_changes[path[i+1]]`,
  and the adjacency accesses).
* `heapq` is modelled by a list kept sorted under the lexicographic order on
  `(distance, node, prev_line)` tuples that Python uses; popping the head is
  popping the heap minimum.  (Python would raise `TypeError` when comparing
  `None` with a string inside a tuple; the model totalises that order with
  `None` smallest.  No execution in this file performs such a comparison.)
* The unbounded `while pq:` loop and the path-reconstruction `while` loop
  are modelled with explicit fuel; running out of fuel is a distinguished
  error `PyErr.fuelOut` that is proved unreachable for the fuel the
  embedding supplies.
* Python exceptions are modelled with `Except PyErr`: `PyErr.keyError`
  stands for an uncaught `KeyError`/`IndexError`, `PyErr.noPath` for
  `nx.NetworkXNoPath` (the one exception `find_fastest_route` catches).
* `travel_time = total_time - num_transfers * transfer_penalty` uses
  truncated `Nat` subtraction; the summariser adds `transfer_penalty` to
  `total_time` exactly `num_transfers` times, so the subtraction never
  truncates (proved below).
-/

namespace ODPair

abbrev Node := String
abbrev Line := String

/-- Attributes of one multigraph edge, as written by `Main.create_network`
(`line=...`, `weight=...`).  The `direction` attribute also stored there is
never read by the functions under verification and is omitted. -/
structure EdgeData where
  line : Line
  weight : Nat
deriving Repr, DecidableEq

/-- The `nx.MultiGraph`: node list plus nested adjacency association lists
`node ↦ List (neighbor × List (key × data))`. -/
structure Graph where
  nodes : List Node
  adjL : List (Node × List (Node × List (Nat × EdgeData)))
deriving Repr

/-- The adjacency dict `G._adj[u]` (empty for an absent key; accesses in the
source are guarded by explicit node-membership checks modelling `KeyError`). -/
def Graph.adj (G : Graph) (u : Node) : List (Node × List (Nat × EdgeData)) :=
  match G.adjL.find? (fun p => p.1 == u) with
  | some p => p.2
  | none => []

/-- All `(neighbor, edge_key, edge_data)` triples reachable from `u`,
in the iteration order of
`for neighbor, edge_dict in G[u].items(): for edge_key, edge_data in edge_dict.items()`. -/
def adjFlat (G : Graph) (u : Node) : List (Node × Nat × EdgeData) :=
  ((G.adj u).map (fun p => p.2.map (fun ke => (p.1, ke.1, ke.2)))).flatten

/-- Python exceptions relevant to `find_fastest_route`:
`keyError` = uncaught `KeyError`/`IndexError`, `noPath` = `nx.NetworkXNoPath`,
`fuelOut` = model artifact for the bounded loops (proved unreachable). -/
inductive PyErr where
  | keyError
  | noPath
  | fuelOut
deriving Repr, DecidableEq

/-- A heap entry `(distance, node, previous_line)`. -/
abbrev Entry := Nat × Node × Option Line

/-- Order on the third tuple component (`None` smallest, strings by order). -/
def optLineLe (a b : Option Line) : Bool :=
  match a, b with
  | none, _ => true
  | some _, none => false
  | some x, some y => decide (x ≤ y)

/-- Lexicographic tuple order used by `heapq` on `(distance, node, prev_line)`. -/
def entryLe (a b : Entry) : Bool :=
  if a.1 < b.1 then true
  else if b.1 < a.1 then false
  else if a.2.1 < b.2.1 then true
  else if b.2.1 < a.2.1 then false
  else optLineLe a.2.2 b.2.2

/-- The heap-entry order as a relation (for `List.orderedInsert`). -/
def entryR (a b : Entry) : Prop := entryLe a b = true

instance : DecidableRel entryR := fun a b => by unfold entryR; infer_instance

/-- `heapq.heappush`: the heap is modelled as a sorted list. -/
def heappush (pq : List Entry) (e : Entry) : List Entry :=
  pq.orderedInsert entryR e

/-- Truthiness of `prev_line` in `prev_line and current_line != prev_line`:
`None` and the empty string are falsy. -/
def isTransfer (prev_line : Option Line) (current_line : Line) : Bool :=
  match prev_line with
  | none => false
  | some s => !(s == "") && !(current_line == s)

/-- `dijkstra_weight` (lines 21-32): base weight plus `transfer_penalty`
plus a fixed bias of 10 when the line changes. -/
def dijkstra_weight (transfer_penalty : Nat) (edge_attr : EdgeData)
    (prev_line : Option Line) : Nat :=
  edge_attr.weight
    + (if isTransfer prev_line edge_attr.line then transfer_penalty else 0)
    + (if isTransfer prev_line edge_attr.line then 10 else 0)

/-- The mutable state of `custom_fastest_path`:
`distances` (with `none` standing for `float('infinity')`), the three
parent-pointer dictionaries, and the visited set (kept as a list in
processing order, earliest first). -/
structure DState where
  distances : Node → Option Nat
  previous : Node → Option Node
  previousLines : Node → Option Line
  previousEdgeKeys : Node → Option Nat
  visited : List Node

/-- `some d < distances[neighbor]` where `none` is `float('infinity')`. -/
def ltInf (d : Nat) (o : Option Nat) : Bool :=
  match o with
  | none => true
  | some dv => decide (d < dv)

/-- One relaxation (lines 59-68): try the edge `(v, k, ed)` out of `u`,
where `u` was popped with distance `d` and previous line `pl`. -/
def relaxOne (transfer_penalty : Nat) (u : Node) (d : Nat) (pl : Option Line)
    (acc : DState × List Entry) (t : Node × Nat × EdgeData) : DState × List Entry :=
  let st := acc.1
  let pq := acc.2
  let v := t.1
  let k := t.2.1
  let ed := t.2.2
  let distance := d + dijkstra_weight transfer_penalty ed pl
  if ltInf distance (st.distances v) then
    ({ distances := fun x => if x = v then some distance else st.distances x
       previous := fun x => if x = v then some u else st.previous x
       previousLines := fun x => if x = v then some ed.line else st.previousLines x
       previousEdgeKeys := fun x => if x = v then some k else st.previousEdgeKeys x
       visited := st.visited },
     heappush pq (distance, v, some ed.line))
  else
    (st, pq)

/-- All relaxations out of `u` (the nested `for` loops, lines 57-68). -/
def relaxAll (G : Graph) (transfer_penalty : Nat) (u : Node) (d : Nat)
    (pl : Option Line) (st : DState) (pq : List Entry) : DState × List Entry :=
  (adjFlat G u).foldl (relaxOne transfer_penalty u d pl) (st, pq)

/-- The `while pq:` loop of `custom_fastest_path` (lines 45-68), with fuel.
Branch order follows the source: pop, break on target, skip visited nodes,
otherwise mark visited and relax every incident edge (`G[current_node]`
raises `KeyError` for a node absent from the graph). -/
def cfpLoop (G : Graph) (target : Node) (transfer_penalty : Nat) :
    Nat → List Entry → DState → Except PyErr DState
  | 0, _, _ => .error .fuelOut
  | _ + 1, [], st => .ok st
  | fuel + 1, e :: rest, st =>
    let u := e.2.1
    if u = target then .ok st
    else if u ∈ st.visited then cfpLoop G target transfer_penalty fuel rest st
    else if u ∈ G.nodes then
      let st' : DState :=
        { distances := st.distances, previous := st.previous
          previousLines := st.previousLines, previousEdgeKeys := st.previousEdgeKeys
          visited := st.visited ++ [u] }
      let r := relaxAll G transfer_penalty u e.1 e.2.2 st' rest
      cfpLoop G target transfer_penalty fuel r.2 r.1
    else .error .keyError

/-- Fuel sufficient for `cfpLoop` (proved below): one more than the seed
entry plus one push per incident edge of every node. -/
def loopFuel (G : Graph) : Nat :=
  2 + (G.nodes.map (fun u => (adjFlat G u).length)).sum

/-- Path reconstruction (lines 73-83), walking `previous` pointers from the
target with fuel; produces the path in source-to-target order together with
the recorded edge keys (the source appends then reverses, which yields the
same lists).  Reading `previous[current]` for a node outside the dictionary
domain `G.nodes()` raises `KeyError`. -/
def reconstruct (G : Graph) (st : DState) :
    Nat → Node → Except PyErr (List Node × List (Option Nat))
  | 0, _ => .error .fuelOut
  | fuel + 1, current =>
    if current ∈ G.nodes then
      match st.previous current with
      | none => .ok ([current], [])
      | some c =>
        match reconstruct G st fuel c with
        | .error e => .error e
        | .ok (p, ks) => .ok (p ++ [current], ks ++ [st.previousEdgeKeys current])
    else .error .keyError

/-- `custom_fastest_path` (lines 34-85). The `distances` dictionary is
initialised over `G.nodes()` and then `distances[source] = 0` adds the
source even when it is not a node, hence the domain check
`target ∈ G.nodes ∨ target = source` at the `distances[target]` read. -/
def custom_fastest_path (G : Graph) (source target : Node) (transfer_penalty : Nat) :
    Except PyErr (List Node × (Node → Option Line) × List (Option Nat)) :=
  let st0 : DState :=
    { distances := fun n => if n = source then some 0 else none
      previous := fun _ => none
      previousLines := fun _ => none
      previousEdgeKeys := fun _ => none
      visited := [] }
  match cfpLoop G target transfer_penalty (loopFuel G) [(0, source, none)] st0 with
  | .error e => .error e
  | .ok st =>
    if target ∈ G.nodes ∨ target = source then
      match st.distances target with
      | none => .error .noPath
      | some _ =>
        match reconstruct G st (G.nodes.length + 2) target with
        | .error e => .error e
        | .ok (path, keys) => .ok (path, st.previousLines, keys)
    else .error .keyError

/-- A contiguous same-line run of the returned route (the dicts built at
lines 117-122). -/
structure Segment where
  from_station : Node
  to_station : Option Node
  line : Option Line
  time : Nat
deriving Repr, DecidableEq

/-- The dictionary returned by `find_fastest_route` (lines 132-142). -/
structure Route where
  path : List Node
  lines_used : List (Option Line)
  transfers : List Node
  num_transfers : Nat
  total_stations : Nat
  total_time : Nat
  travel_time : Nat
  transfer_time : Nat
  segments : List Segment
deriving Repr, DecidableEq

/-- The mutable state of the summarising loop (lines 91-95). -/
structure SumState where
  lines_used : List (Option Line)
  current_line : Option Line
  transfers : List Node
  total_time : Nat
  segments : List Segment
deriving Repr, DecidableEq

/-- `if segments: <mutate segments[-1]>`. -/
def updateLastSeg (f : Segment → Segment) : List Segment → List Segment
  | [] => []
  | [s] => [f s]
  | s :: rest => s :: updateLastSeg f rest

/-- `G[a][b][k]`: nested dict lookups, each raising `KeyError` on a missing
key (including the `None` edge key, which is never a dict key). -/
def getEdgeData (G : Graph) (a b : Node) (k : Option Nat) : Except PyErr EdgeData :=
  if a ∈ G.nodes then
    match (G.adj a).find? (fun p => p.1 == b) with
    | none => .error .keyError
    | some p =>
      match k with
      | none => .error .keyError
      | some kk =>
        match p.2.find? (fun q => q.1 == kk) with
        | none => .error .keyError
        | some q => .ok q.2
  else .error .keyError

/-- The summarising `for i in range(len(path) - 1)` loop (lines 97-126),
processing the hop from `a` to the head of the remaining path with the head
of the remaining edge keys (`edge_keys[i]` raises `IndexError` when
exhausted; both are `PyErr.keyError` in the model). -/
def sumLoop (G : Graph) (transfer_penalty : Nat) (line_changes : Node → Option Line) :
    Node → List Node → List (Option Nat) → SumState → Except PyErr SumState
  | _, [], _, s => .ok s
  | _, _ :: _, [], _ => .error .keyError
  | a, b :: restPath, k :: restKeys, s =>
    match getEdgeData G a b k with
    | .error e => .error e
    | .ok ed =>
      let segment_time := ed.weight
      let total1 := s.total_time + segment_time
      if b ∈ G.nodes then
        let lc := line_changes b
        let s1 : SumState :=
          if lc ≠ s.current_line then
            match s.current_line with
            | some _ =>
              { lines_used := s.lines_used ++ [lc]
                current_line := lc
                transfers := s.transfers ++ [a]
                total_time := total1 + transfer_penalty
                segments :=
                  updateLastSeg (fun sg => { sg with to_station := some a }) s.segments
                    ++ [{ from_station := a, to_station := none, line := lc, time := 0 }] }
            | none =>
              { lines_used := s.lines_used ++ [lc]
                current_line := lc
                transfers := s.transfers
                total_time := total1
                segments := s.segments
                    ++ [{ from_station := a, to_station := none, line := lc, time := 0 }] }
          else
            { s with total_time := total1 }
        let s2 : SumState :=
          { s1 with segments :=
              updateLastSeg (fun sg => { sg with time := sg.time + segment_time }) s1.segments }
        sumLoop G transfer_penalty line_changes b restPath restKeys s2
      else .error .keyError

/-- Lines 91-142: run the summarising loop over the path, close the final
segment with `path[-1]` (only when a segment exists), and build the result
dictionary. -/
def summarize (G : Graph) (transfer_penalty : Nat) (line_changes : Node → Option Line)
    (path : List Node) (edge_keys : List (Option Nat)) : Except PyErr Route :=
  let s0 : SumState :=
    { lines_used := [], current_line := none, transfers := [], total_time := 0, segments := [] }
  let run : Except PyErr SumState :=
    match path with
    | [] => .ok s0
    | a :: rest => sumLoop G transfer_penalty line_changes a rest edge_keys s0
  match run with
  | .error e => .error e
  | .ok s =>
    let segs :=
      match path.getLast? with
      | some last => updateLastSeg (fun sg => { sg with to_station := some last }) s.segments
      | none => s.segments
    .ok { path := path
          lines_used := s.lines_used
          transfers := s.transfers
          num_transfers := s.transfers.length
          total_stations := path.length
          total_time := s.total_time
          travel_time := s.total_time - s.transfers.length * transfer_penalty
          transfer_time := s.transfers.length * transfer_penalty
          segments := segs }

/-- `find_fastest_route` (lines 7-145): run the search, summarise, and
return `None` (`ok none`) when `nx.NetworkXNoPath` is raised anywhere in
the `try` block; every other exception propagates. -/
def find_fastest_route (G : Graph) (origin destination : Node)
    (transfer_penalty : Nat) : Except PyErr (Option Route) :=
  match custom_fastest_path G origin destination transfer_penalty with
  | .error .noPath => .ok none
  | .error e => .error e
  | .ok (path, line_changes, edge_keys) =>
    match summarize G transfer_penalty line_changes path edge_keys with
    | .error .noPath => .ok none
    | .error e => .error e
    | .ok r => .ok (some r)

/-- `get_path_type` (lines 148-156); falling off the end returns `None`. -/
def get_path_type (origin destination : Node) (closed_stations : List Node)
    (path : List Node) : Option String :=
  if origin ∈ closed_stations ∧ destination ∉ closed_stations then some "Origin trip"
  else if origin ∉ closed_stations ∧ destination ∈ closed_stations then some "Destination trip"
  else if origin ∈ closed_stations ∧ destination ∈ closed_stations then some "Internal trip"
  else if path.any (fun station => station ∈ closed_stations) then some "Passing trip"
  else none

/-- The boundary-station scan shared by `calculate_origin_station` and
`calculate_destination_station`: return on the first station equal to the
inbound boundary, else on the first equal to the outbound boundary. -/
def firstBoundary (ib ob : Node) : List Node → Option Node
  | [] => none
  | station :: rest =>
    if station = ib then some ib
    else if station = ob then some ob
    else firstBoundary ib ob rest

/-- `calculate_origin_station` (lines 165-181). -/
def calculate_origin_station (path_type : Option String) (origin ib ob : Node)
    (path : List Node) : Option Node :=
  if path_type = some "Origin trip" then some origin
  else if path_type = some "Destination trip" then firstBoundary ib ob path
  else if path_type = some "Internal trip" then some origin
  else if path_type = some "Passing trip" then firstBoundary ib ob path
  else none

/-- `calculate_destination_station` (lines 183-199); scans `path[::-1]`. -/
def calculate_destination_station (path_type : Option String) (destination ib ob : Node)
    (path : List Node) : Option Node :=
  if path_type = some "Destination trip" then some destination
  else if path_type = some "Origin trip" then firstBoundary ib ob path.reverse
  else if path_type = some "Internal trip" then some destination
  else if path_type = some "Passing trip" then firstBoundary ib ob path.reverse
  else none

/-- `origin_station_if_none` (lines 213-218). -/
def origin_station_if_none (new_origin : Option Node) (path : List Node)
    (closed_stations : List Node) : Option Node :=
  match new_origin with
  | none => path.find? (fun station => station ∈ closed_stations)
  | some v => some v

/-- `destination_station_if_none` (lines 220-225). -/
def destination_station_if_none (new_destination : Option Node) (path : List Node)
    (closed_stations : List Node) : Option Node :=
  match new_destination with
  | none => path.reverse.find? (fun station => station ∈ closed_stations)
  | some v => some v

instance exceptDecEq {ε α : Type} [DecidableEq ε] [DecidableEq α] :
    DecidableEq (Except ε α) := fun a b =>
  match a, b with
  | .error e, .error f => decidable_of_iff (e = f) (by simp)
  | .error _, .ok _ => isFalse (by simp)
  | .ok _, .error _ => isFalse (by simp)
  | .ok a, .ok b => decidable_of_iff (a = b) (by simp)

/-- Well-formedness of a graph value, as `networkx` guarantees for graphs it
builds: adjacency lists mention only nodes of the graph and behave as
dictionaries (no duplicate neighbor keys, no duplicate edge keys). -/
def Wf (G : Graph) : Prop :=
  ∀ e ∈ G.adjL,
    (∀ p ∈ e.2, p.1 ∈ G.nodes ∧ (p.2.map Prod.fst).Nodup) ∧ (e.2.map Prod.fst).Nodup

instance (G : Graph) : Decidable (Wf G) := by unfold Wf; infer_instance

/-- Connectivity by a walk along adjacency entries ("connected by at least
one path" for the symmetric graphs `networkx` builds). -/
inductive Reach (G : Graph) : Node → Node → Prop where
  | refl (a : Node) : Reach G a a
  | tail {a b c : Node} : Reach G a b → (∃ t ∈ adjFlat G b, t.1 = c) → Reach G a c

/-- The two-line property-test network of spec §8: stations A-B-C on
Line 1 and C-D-E on Line 2, every hop cost 100 (adjacency written exactly
as `nx.MultiGraph.add_edge` inserts it, symmetric with auto key 0). -/
def gChain : Graph :=
  { nodes := ["A", "B", "C", "D", "E"]
    adjL := [
      ("A", [("B", [(0, ⟨"Line 1", 100⟩)])]),
      ("B", [("A", [(0, ⟨"Line 1", 100⟩)]), ("C", [(0, ⟨"Line 1", 100⟩)])]),
      ("C", [("B", [(0, ⟨"Line 1", 100⟩)]), ("D", [(0, ⟨"Line 2", 100⟩)])]),
      ("D", [("C", [(0, ⟨"Line 2", 100⟩)]), ("E", [(0, ⟨"Line 2", 100⟩)])]),
      ("E", [("D", [(0, ⟨"Line 2", 100⟩)])])
    ] }

/-- `gChain` extended with the disconnected station F of spec §8. -/
def gChainF : Graph :=
  { nodes := ["A", "B", "C", "D", "E", "F"]
    adjL := gChain.adjL }

/-- Network exhibiting non-monotonicity of the transfer count in the
penalty: a single-line corridor S-W-D on line LC, a direct edge S-M on
line LB, a two-leg detour S-H-M (lines LZ, LY, one transfer) that is
cheaper than the direct edge for small penalties, and an edge M-W on LB. -/
def gMono : Graph :=
  { nodes := ["S", "H", "M", "W", "D"]
    adjL := [
      ("S", [("W", [(0, ⟨"LC", 120⟩)]), ("M", [(0, ⟨"LB", 100⟩)]), ("H", [(0, ⟨"LZ", 25⟩)])]),
      ("W", [("S", [(0, ⟨"LC", 120⟩)]), ("D", [(0, ⟨"LC", 10⟩)]), ("M", [(0, ⟨"LB", 10⟩)])]),
      ("M", [("S", [(0, ⟨"LB", 100⟩)]), ("H", [(0, ⟨"LY", 25⟩)]), ("W", [(0, ⟨"LB", 10⟩)])]),
      ("H", [("S", [(0, ⟨"LZ", 25⟩)]), ("M", [(0, ⟨"LY", 25⟩)])]),
      ("D", [("W", [(0, ⟨"LC", 10⟩)])])
    ] }

/-- Combined size of the adjacency flats of the not-yet-visited nodes
(used to bound the number of loop iterations). -/
def remAdjSize (G : Graph) (visited : List Node) : Nat :=
  ((G.nodes.filter (fun n => !(decide (n ∈ visited)))).map
    (fun u => (adjFlat G u).length)).sum

/-- Termination measure of `cfpLoop`: queue length plus one potential push
per incident edge of every unvisited node. -/
def phi (G : Graph) (pq : List Entry) (st : DState) : Nat :=
  pq.length + remAdjSize G st.visited

/-- Loop invariants of `custom_fastest_path` that do not mention the key of
the entry being processed.  `distances`, `previous`, `previousLines` and
`previousEdgeKeys` are the dictionaries of the source; `visited` is kept in
processing order. -/
structure Core (G : Graph) (source : Node) (pq : List Entry) (st : DState) : Prop where
  sorted : pq.Sorted entryR
  mem_nodes : ∀ e ∈ pq, e.2.1 ∈ G.nodes ∨ e.2.1 = source
  key_ge : ∀ e ∈ pq, ∃ dv, st.distances e.2.1 = some dv ∧ dv ≤ e.1
  witness : ∀ n ∉ st.visited, ∀ dv, st.distances n = some dv → ∃ pl, (dv, n, pl) ∈ pq
  vis_mem : ∀ n ∈ st.visited, n ∈ G.nodes
  vis_nodup : st.visited.Nodup
  src_dist : st.distances source = some 0
  prev_proc : ∀ n c, st.previous n = some c → c ∈ st.visited
  prev_order : ∀ n c, st.previous n = some c → n ∈ st.visited →
      st.visited.indexOf c < st.visited.indexOf n
  prev_fin : ∀ n c, st.previous n = some c → st.distances n ≠ none
  root_src : ∀ n, st.previous n = none → st.distances n ≠ none → n = source
  reach : ∀ n, st.distances n ≠ none → Reach G source n
  prev_edge : ∀ n c, st.previous n = some c →
      ∃ k ed, st.previousEdgeKeys n = some k ∧ st.previousLines n = some ed.line ∧
        (n, k, ed) ∈ adjFlat G c
  lines_none : ∀ n, st.previous n = none →
      st.previousLines n = none ∧ st.previousEdgeKeys n = none

/-- The invariant holding between loop iterations. -/
structure Inv (G : Graph) (source : Node) (pq : List Entry) (st : DState)
    extends Core G source pq st : Prop where
  vis_fin : ∀ n ∈ st.visited, ∃ dv, st.distances n = some dv ∧ ∀ e ∈ pq, dv ≤ e.1
  vis_closed : ∀ n ∈ st.visited, ∀ t ∈ adjFlat G n, st.distances t.1 ≠ none

/-- The invariant holding while the relaxations out of the node `u`, popped
with key `d`, are being folded. -/
structure Mid (G : Graph) (source u : Node) (d : Nat) (pq : List Entry) (st : DState)
    extends Core G source pq st : Prop where
  visBound : ∀ n ∈ st.visited, ∃ dv, st.distances n = some dv ∧ dv ≤ d
  pqBound : ∀ e ∈ pq, d ≤ e.1
  uVis : u ∈ st.visited
  uDist : st.distances u = some d
  vis_closed_except : ∀ n ∈ st.visited, n ≠ u → ∀ t ∈ adjFlat G n, st.distances t.1 ≠ none

/-- What survives of the invariant when the loop returns its final state. -/
structure Final (G : Graph) (source : Node) (st : DState) : Prop where
  vis_mem : ∀ n ∈ st.visited, n ∈ G.nodes
  vis_nodup : st.visited.Nodup
  vis_fin2 : ∀ n ∈ st.visited, st.distances n ≠ none
  vis_closed : ∀ n ∈ st.visited, ∀ t ∈ adjFlat G n, st.distances t.1 ≠ none
  src_dist : st.distances source = some 0
  prev_proc : ∀ n c, st.previous n = some c → c ∈ st.visited
  prev_order : ∀ n c, st.previous n = some c → n ∈ st.visited →
      st.visited.indexOf c < st.visited.indexOf n
  prev_fin : ∀ n c, st.previous n = some c → st.distances n ≠ none
  root_src : ∀ n, st.previous n = none → st.distances n ≠ none → n = source
  reach : ∀ n, st.distances n ≠ none → Reach G source n
  prev_edge : ∀ n c, st.previous n = some c →
      ∃ k ed, st.previousEdgeKeys n = some k ∧ st.previousLines n = some ed.line ∧
        (n, k, ed) ∈ adjFlat G c
  lines_none : ∀ n, st.previous n = none →
      st.previousLines n = none ∧ st.previousEdgeKeys n = none

/-- All nodes at finite distance have been visited (holds when the queue
drained without reaching the target). -/
def AllFinVis (st : DState) : Prop :=
  ∀ n, st.distances n ≠ none → n ∈ st.visited

/-- The reconstructed path follows the final parent pointers, with the
edge-key list aligned to the hops. -/
def PathChain (st : DState) : List Node → List (Option Nat) → Prop
  | [_], [] => True
  | a :: b :: rest, k :: ks =>
    st.previous b = some a ∧ st.previousEdgeKeys b = k ∧ PathChain st (b :: rest) ks
  | _, _ => False

/-- The base costs of the edges a path traverses, looked up from the graph
with the per-hop edge keys exactly as the summarising loop does
(`G[path[i]][path[i+1]][edge_keys[i]]`); `none` when any lookup fails or
the lists do not align. -/
def pathEdgeWeights (G : Graph) : List Node → List (Option Nat) → Option (List Nat)
  | [], [] => some []
  | [_], [] => some []
  | a :: b :: rest, k :: ks =>
    match getEdgeData G a b k, pathEdgeWeights G (b :: rest) ks with
    | .ok ed, some ws => some (ed.weight :: ws)
    | _, _ => none
  | _, _ => none

/-- The route the router returns on `gChain` for query (A, E) at penalty 50
(the §8 scenario). -/
def routeAE : Route :=
  { path := ["A", "B", "C", "D", "E"]
    lines_used := [some "Line 1", some "Line 2"]
    transfers := ["C"]
    num_transfers := 1
    total_stations := 5
    total_time := 450
    travel_time := 400
    transfer_time := 50
    segments := [
      { from_station := "A", to_station := some "C", line := some "Line 1", time := 200 },
      { from_station := "C", to_station := some "E", line := some "Line 2", time := 200 }] }

/-- The (A, E) route on `gChain` at penalty 0. -/
def routeAE0 : Route :=
  { routeAE with total_time := 400, transfer_time := 0 }

/-- The (A, E) route on `gChain` at penalty 900. -/
def routeAE900 : Route :=
  { routeAE with total_time := 1300, transfer_time := 900 }

/-!
## Theorems
-/

/-- Totality of the third-component order of heap entries. -/
theorem optLineLe_total (a b : Option Line) : optLineLe a b = true ∨ optLineLe b a = true := by
  cases a <;> cases b <;> simp [optLineLe]
  exact le_total _ _

/-- Transitivity of the third-component order of heap entries. -/
theorem optLineLe_trans {a b c : Option Line} (h1 : optLineLe a b = true)
    (h2 : optLineLe b c = true) : optLineLe a c = true := by
  cases a <;> cases b <;> cases c <;> simp_all [optLineLe]
  exact le_trans h1 h2

/-- The heap-entry order unfolded to a lexicographic disjunction. -/
theorem entryLe_iff (a b : Entry) : entryLe a b = true ↔
    (a.1 < b.1 ∨ (a.1 = b.1 ∧ a.2.1 < b.2.1) ∨
      (a.1 = b.1 ∧ a.2.1 = b.2.1 ∧ optLineLe a.2.2 b.2.2 = true)) := by
  unfold entryLe
  rcases lt_trichotomy a.1 b.1 with h1 | h1 | h1
  · rw [if_pos h1]; simp [h1]
  · rw [if_neg (by omega), if_neg (by omega)]
    rcases lt_trichotomy a.2.1 b.2.1 with h2 | h2 | h2
    · rw [if_pos h2]; simp [h1, h2]
    · rw [if_neg (by simp [h2]), if_neg (by simp [h2])]
      simp [h1, h2, lt_irrefl]
    · rw [if_neg (asymm h2), if_pos h2]
      simp [h1, lt_asymm h2, ne_of_gt h2]
  · rw [if_neg (asymm h1), if_pos h1]
    simp [asymm h1, ne_of_gt h1]

/-- The heap-entry order is total. -/
theorem entryLe_total (a b : Entry) : entryLe a b = true ∨ entryLe b a = true := by
  rw [entryLe_iff, entryLe_iff]
  rcases lt_trichotomy a.1 b.1 with h1 | h1 | h1
  · exact Or.inl (Or.inl h1)
  · rcases lt_trichotomy a.2.1 b.2.1 with h2 | h2 | h2
    · exact Or.inl (Or.inr (Or.inl ⟨h1, h2⟩))
    · rcases optLineLe_total a.2.2 b.2.2 with h3 | h3
      · exact Or.inl (Or.inr (Or.inr ⟨h1, h2, h3⟩))
      · exact Or.inr (Or.inr (Or.inr ⟨h1.symm, h2.symm, h3⟩))
    · exact Or.inr (Or.inr (Or.inl ⟨h1.symm, h2⟩))
  · exact Or.inr (Or.inl h1)

/-- The heap-entry order is transitive. -/
theorem entryLe_trans {a b c : Entry} (h1 : entryLe a b = true) (h2 : entryLe b c = true) :
    entryLe a c = true := by
  rw [entryLe_iff] at h1 h2 ⊢
  rcases h1 with h | ⟨e1, h⟩ | ⟨e1, f1, h⟩ <;> rcases h2 with g | ⟨e2, g⟩ | ⟨e2, f2, g⟩
  · exact Or.inl (lt_trans h g)
  · exact Or.inl (e2 ▸ h)
  · exact Or.inl (e2 ▸ h)
  · exact Or.inl (e1 ▸ g)
  · exact Or.inr (Or.inl ⟨e1.trans e2, lt_trans h g⟩)
  · exact Or.inr (Or.inl ⟨e1.trans e2, f2 ▸ h⟩)
  · exact Or.inl (e1 ▸ g)
  · exact Or.inr (Or.inl ⟨e1.trans e2, f1 ▸ g⟩)
  · exact Or.inr (Or.inr ⟨e1.trans e2, f1.trans f2, optLineLe_trans h g⟩)

instance : IsTotal Entry entryR := ⟨fun a b => entryLe_total a b⟩

instance : IsTrans Entry entryR := ⟨fun _ _ _ => entryLe_trans⟩

/-- A smaller heap entry has a smaller or equal key. -/
theorem entryLe_fst {a b : Entry} (h : entryLe a b = true) : a.1 ≤ b.1 := by
  rw [entryLe_iff] at h
  rcases h with h | ⟨e, _⟩ | ⟨e, _, _⟩ <;> omega

/-- Pushing preserves sortedness of the queue. -/
theorem heappush_sorted {pq : List Entry} (h : pq.Sorted entryR) (e : Entry) :
    (heappush pq e).Sorted entryR :=
  List.Sorted.orderedInsert e pq h

/-- Membership in the queue after a push. -/
theorem mem_heappush {pq : List Entry} {e x : Entry} :
    x ∈ heappush pq e ↔ x = e ∨ x ∈ pq :=
  List.mem_orderedInsert entryR

/-- Pushing grows the queue by one entry. -/
theorem heappush_length (pq : List Entry) (e : Entry) :
    (heappush pq e).length = pq.length + 1 :=
  List.orderedInsert_length entryR pq e

/-- The boundary scan of `calculate_origin_station`/`calculate_destination_station`
returns the first station of the scanned list equal to either boundary. -/
theorem firstBoundary_eq_find (ib ob : Node) (path : List Node) :
    firstBoundary ib ob path = path.find? (fun s => s == ib || s == ob) := by
  induction path with
  | nil => rfl
  | cons s rest ih =>
    simp only [firstBoundary, List.find?]
    by_cases h1 : s = ib
    · simp [h1]
    · by_cases h2 : s = ob
      · subst h2; simp [h1]
      · have hb : (s == ib || s == ob) = false := by simp [h1, h2]
        simp [h1, h2, hb, ih]

/-- C8: the trip classifier returns "Origin trip" exactly when the origin is
closed and the destination is not, "Destination trip" exactly when the
destination is closed and the origin is not, "Internal trip" exactly when
both are closed, "Passing trip" exactly when neither endpoint is closed but
some station on the path is closed, and no classification otherwise. -/
theorem path_type_classification (o d : Node) (closed path : List Node) :
    (get_path_type o d closed path = some "Origin trip" ↔ o ∈ closed ∧ d ∉ closed)
  ∧ (get_path_type o d closed path = some "Destination trip" ↔ o ∉ closed ∧ d ∈ closed)
  ∧ (get_path_type o d closed path = some "Internal trip" ↔ o ∈ closed ∧ d ∈ closed)
  ∧ (get_path_type o d closed path = some "Passing trip" ↔
      (o ∉ closed ∧ d ∉ closed ∧ ∃ s ∈ path, s ∈ closed))
  ∧ (get_path_type o d closed path = none ↔
      (o ∉ closed ∧ d ∉ closed ∧ ∀ s ∈ path, s ∉ closed)) := by
  unfold get_path_type
  by_cases ho : o ∈ closed <;> by_cases hd : d ∈ closed <;>
    cases hp : path.any (fun station => station ∈ closed) <;>
    simp_all [List.any_eq_true]

/-- C9: for a trip classified as a Passing trip, the remapped origin is the
first station equal to either boundary station walking the path forward and
the remapped destination the first such station walking backward; when no
boundary station occurs on the path, the `..._if_none` fallbacks return the
first closed station in the respective scan direction. -/
theorem passing_trip_remap (o d ib ob : Node) (closed path : List Node)
    (h : get_path_type o d closed path = some "Passing trip") :
    origin_station_if_none
        (calculate_origin_station (get_path_type o d closed path) o ib ob path) path closed
      = (path.find? (fun s => s == ib || s == ob)).orElse
          (fun _ => path.find? (fun s => s ∈ closed))
  ∧ destination_station_if_none
        (calculate_destination_station (get_path_type o d closed path) d ib ob path) path closed
      = (path.reverse.find? (fun s => s == ib || s == ob)).orElse
          (fun _ => path.reverse.find? (fun s => s ∈ closed)) := by
  rw [h]
  rw [show calculate_origin_station (some "Passing trip") o ib ob path
        = firstBoundary ib ob path from by simp [calculate_origin_station]]
  rw [show calculate_destination_station (some "Passing trip") d ib ob path
        = firstBoundary ib ob path.reverse from by simp [calculate_destination_station]]
  rw [firstBoundary_eq_find, firstBoundary_eq_find]
  constructor
  · cases hf : path.find? (fun s => s == ib || s == ob) with
    | none => simp [origin_station_if_none, Option.orElse]
    | some v => simp [origin_station_if_none, Option.orElse]
  · cases hf : path.reverse.find? (fun s => s == ib || s == ob) with
    | none => simp [destination_station_if_none, Option.orElse]
    | some v => simp [destination_station_if_none, Option.orElse]

/-- Witness for C9 at a concrete passing trip: origin A, destination E,
closed station C, path A-B-C-D-E, both boundary stations C. -/
theorem passing_trip_remap_witness :
    get_path_type "A" "E" ["C"] ["A", "B", "C", "D", "E"] = some "Passing trip"
  ∧ (origin_station_if_none
        (calculate_origin_station (get_path_type "A" "E" ["C"] ["A", "B", "C", "D", "E"])
          "A" "C" "C" ["A", "B", "C", "D", "E"]) ["A", "B", "C", "D", "E"] ["C"]
      = ((["A", "B", "C", "D", "E"] : List Node).find? (fun s => s == "C" || s == "C")).orElse
          (fun _ => (["A", "B", "C", "D", "E"] : List Node).find? (fun s => s ∈ ["C"]))
  ∧ destination_station_if_none
        (calculate_destination_station (get_path_type "A" "E" ["C"] ["A", "B", "C", "D", "E"])
          "E" "C" "C" ["A", "B", "C", "D", "E"]) ["A", "B", "C", "D", "E"] ["C"]
      = ((["A", "B", "C", "D", "E"] : List Node).reverse.find? (fun s => s == "C" || s == "C")).orElse
          (fun _ => (["A", "B", "C", "D", "E"] : List Node).reverse.find? (fun s => s ∈ ["C"]))) :=
  ⟨by decide, passing_trip_remap "A" "E" "C" "C" ["C"] ["A", "B", "C", "D", "E"] (by decide)⟩

/-- C5: on the §8 two-line chain network with transfer penalty 50, the route
from A to E is A-B-C-D-E with one transfer (at C), transfer time 50, travel
time 400 and total time 450. -/
theorem chain_scenario_route : find_fastest_route gChain "A" "E" 50 = .ok (some
    { path := ["A", "B", "C", "D", "E"]
      lines_used := [some "Line 1", some "Line 2"]
      transfers := ["C"]
      num_transfers := 1
      total_stations := 5
      total_time := 450
      travel_time := 400
      transfer_time := 50
      segments := [
        { from_station := "A", to_station := some "C", line := some "Line 1", time := 200 },
        { from_station := "C", to_station := some "E", line := some "Line 2", time := 200 }] }) := by
  decide


/-- Counterexample for C2: querying a station absent from the network makes
`find_fastest_route` raise an ordinary uncaught `KeyError` (the same generic
error any missing dictionary key raises), not a distinguished
unknown-station error and not a normal result. -/
theorem unknown_station_keyerror_cx :
    "Z" ∉ gChain.nodes ∧ find_fastest_route gChain "Z" "A" 900 = .error .keyError := by
  decide

/-- Counterexample for C6: on `gMono`, raising the transfer penalty from 30
to 60 increases the number of transfers of the returned S-to-D route from 0
to 1, refuting monotonicity of the transfer count in the penalty. -/
theorem penalty_monotonicity_cx :
    30 ≤ 60
  ∧ (find_fastest_route gMono "S" "D" 30).map (Option.map Route.num_transfers)
      = .ok (some 0)
  ∧ (find_fastest_route gMono "S" "D" 60).map (Option.map Route.num_transfers)
      = .ok (some 1) := by
  decide

section Machinery

variable {G : Graph}

theorem adj_wf (hwf : Wf G) {u : Node} {p : Node × List (Nat × EdgeData)}
    (hp : p ∈ G.adj u) : p.1 ∈ G.nodes ∧ (p.2.map Prod.fst).Nodup := by
  unfold Graph.adj at hp
  cases hfind : G.adjL.find? (fun q => q.1 == u) with
  | none => rw [hfind] at hp; simp at hp
  | some pe =>
    rw [hfind] at hp
    exact (hwf pe (List.mem_of_find?_eq_some hfind)).1 p hp

theorem adjFlat_mem (hwf : Wf G) {u : Node} {t : Node × Nat × EdgeData}
    (ht : t ∈ adjFlat G u) :
    t.1 ∈ G.nodes ∧ ∃ p ∈ G.adj u, p.1 = t.1 ∧ (t.2.1, t.2.2) ∈ p.2 := by
  unfold adjFlat at ht
  rw [List.mem_flatten] at ht
  obtain ⟨inner, hinner, htin⟩ := ht
  rw [List.mem_map] at hinner
  obtain ⟨p, hp, rfl⟩ := hinner
  rw [List.mem_map] at htin
  obtain ⟨ke, hke, rfl⟩ := htin
  exact ⟨(adj_wf hwf hp).1, p, hp, rfl, hke⟩

theorem adjFlat_mem_nodes (hwf : Wf G) {u : Node} {t : Node × Nat × EdgeData}
    (ht : t ∈ adjFlat G u) : t.1 ∈ G.nodes :=
  (adjFlat_mem hwf ht).1

theorem filter_sum_mono (f : Node → Nat) (vis : List Node) (u : Node) :
    ∀ l : List Node,
      ((l.filter (fun n => !(decide (n ∈ vis ++ [u])))).map f).sum
        ≤ ((l.filter (fun n => !(decide (n ∈ vis)))).map f).sum := by
  intro l
  refine List.Sublist.sum_le_sum (List.Sublist.map f (List.monotone_filter_right l ?_))
    (fun a _ => Nat.zero_le a)
  intro n hn
  simp only [List.mem_append, decide_eq_true_eq, Bool.not_eq_true', decide_eq_false_iff_not] at *
  exact fun hm => hn (Or.inl hm)

theorem filter_sum_remove (f : Node → Nat) (vis : List Node) (u : Node) (hnv : u ∉ vis) :
    ∀ l : List Node, u ∈ l →
      ((l.filter (fun n => !(decide (n ∈ vis ++ [u])))).map f).sum + f u
        ≤ ((l.filter (fun n => !(decide (n ∈ vis)))).map f).sum := by
  intro l
  induction l with
  | nil => intro h; simp at h
  | cons n l' ih =>
    intro hu
    by_cases hn : n = u
    · subst hn
      have h1 : (!(decide (n ∈ vis ++ [n]))) = false := by simp
      have h2 : (!(decide (n ∈ vis))) = true := by simp [hnv]
      rw [List.filter_cons, List.filter_cons, h1, h2]
      simp only [Bool.false_eq_true, if_false, if_true, List.map_cons, List.sum_cons]
      have := filter_sum_mono f vis n l'
      omega
    · have hu' : u ∈ l' := by
        rcases List.mem_cons.mp hu with h | h
        · exact absurd h.symm hn
        · exact h
      have hsame : (!(decide (n ∈ vis ++ [u]))) = (!(decide (n ∈ vis))) := by
        simp [List.mem_append, hn]
      by_cases hm : n ∈ vis
      · have hf : (!(decide (n ∈ vis))) = false := by simp [hm]
        rw [List.filter_cons, List.filter_cons, hsame, hf]
        simp only [Bool.false_eq_true, if_false]
        exact ih hu'
      · have hf : (!(decide (n ∈ vis))) = true := by simp [hm]
        rw [List.filter_cons, List.filter_cons, hsame, hf]
        simp only [if_true, List.map_cons, List.sum_cons]
        have := ih hu'
        omega

theorem remAdjSize_remove (hu : u ∈ G.nodes) (hnv : u ∉ visited) :
    remAdjSize G (visited ++ [u]) + (adjFlat G u).length ≤ remAdjSize G visited :=
  filter_sum_remove (fun n => (adjFlat G n).length) visited u hnv G.nodes hu

end Machinery

section Machinery2

variable {G : Graph} {source u : Node} {d : Nat}

theorem ltInf_some {a b : Nat} (h : ltInf a (some b) = true) : a < b := by
  simpa [ltInf] using h

theorem relaxOne_mid {p : Nat} {pl : Option Line} (hwf : Wf G)
    {st : DState} {pq : List Entry} {t : Node × Nat × EdgeData}
    (ht : t ∈ adjFlat G u) (hm : Mid G source u d pq st) :
    Mid G source u d (relaxOne p u d pl (st, pq) t).2 (relaxOne p u d pl (st, pq) t).1
    ∧ (relaxOne p u d pl (st, pq) t).1.visited = st.visited
    ∧ (∀ n, st.distances n ≠ none → (relaxOne p u d pl (st, pq) t).1.distances n ≠ none)
    ∧ (relaxOne p u d pl (st, pq) t).1.distances t.1 ≠ none
    ∧ (relaxOne p u d pl (st, pq) t).2.length ≤ pq.length + 1 := by
  simp only [relaxOne]
  by_cases hlt : ltInf (d + dijkstra_weight p t.2.2 pl) (st.distances t.1) = true
  case neg =>
    rw [if_neg hlt]
    refine ⟨hm, rfl, fun n h => h, ?_, Nat.le_succ _⟩
    intro hnone
    rw [hnone] at hlt
    exact hlt rfl
  case pos =>
    rw [if_pos hlt]
    have hdge : d ≤ d + dijkstra_weight p t.2.2 pl := Nat.le_add_right _ _
    have hvnodes : t.1 ∈ G.nodes := adjFlat_mem_nodes hwf ht
    have hvnv : t.1 ∉ st.visited := by
      intro hmem
      obtain ⟨dv, hdv, hle⟩ := hm.visBound t.1 hmem
      rw [hdv] at hlt
      have := ltInf_some hlt
      omega
    have hvs : t.1 ≠ source := by
      intro hs
      rw [hs, hm.src_dist] at hlt
      have := ltInf_some hlt
      omega
    have hvu : t.1 ≠ u := by
      intro hs
      rw [hs, hm.uDist] at hlt
      have := ltInf_some hlt
      omega
    have hreachv : Reach G source t.1 := by
      have hru : Reach G source u := hm.reach u (by rw [hm.uDist]; simp)
      exact Reach.tail hru ⟨t, ht, rfl⟩
    refine ⟨?_, rfl, ?_, ?_, ?_⟩
    · exact {
        sorted := heappush_sorted hm.sorted _
        mem_nodes := by
          intro e he
          rcases mem_heappush.mp he with rfl | he'
          · exact Or.inl hvnodes
          · exact hm.mem_nodes e he'
        key_ge := by
          intro e he
          rcases mem_heappush.mp he with rfl | he'
          · exact ⟨_, by simp, le_refl _⟩
          · obtain ⟨dv, hdv, hle⟩ := hm.key_ge e he'
            by_cases hev : e.2.1 = t.1
            · refine ⟨d + dijkstra_weight p t.2.2 pl, by simp [hev], ?_⟩
              rw [hev] at hdv
              rw [hdv] at hlt
              have := ltInf_some hlt
              omega
            · exact ⟨dv, by simp [hev, hdv], hle⟩
        witness := by
          intro n hn dv hdv
          by_cases hnv : n = t.1
          · subst hnv
            simp at hdv
            exact ⟨some t.2.2.line, by rw [hdv]; exact mem_heappush.mpr (Or.inl rfl)⟩
          · simp [hnv] at hdv
            obtain ⟨pl2, hpl⟩ := hm.witness n hn dv hdv
            exact ⟨pl2, mem_heappush.mpr (Or.inr hpl)⟩
        vis_mem := hm.vis_mem
        vis_nodup := hm.vis_nodup
        src_dist := by simpa [Ne.symm hvs] using hm.src_dist
        prev_proc := by
          intro n c hc
          by_cases hnv : n = t.1
          · simp [hnv] at hc
            rw [← hc]
            exact hm.uVis
          · simp [hnv] at hc
            exact hm.prev_proc n c hc
        prev_order := by
          intro n c hc hnvis
          by_cases hnv : n = t.1
          · exact absurd (hnv ▸ hnvis) hvnv
          · simp [hnv] at hc
            exact hm.prev_order n c hc hnvis
        prev_fin := by
          intro n c hc
          by_cases hnv : n = t.1
          · simp [hnv]
          · simp [hnv] at hc ⊢
            exact hm.prev_fin n c hc
        root_src := by
          intro n hprev hfin
          by_cases hnv : n = t.1
          · simp [hnv] at hprev
          · simp [hnv] at hprev hfin
            exact hm.root_src n hprev hfin
        reach := by
          intro n hfin
          by_cases hnv : n = t.1
          · exact hnv ▸ hreachv
          · simp [hnv] at hfin
            exact hm.reach n hfin
        prev_edge := by
          intro n c hc
          by_cases hnv : n = t.1
          · subst hnv
            have hcu : c = u := by
              simpa using hc.symm
            subst hcu
            refine ⟨t.2.1, t.2.2, by simp, by simp, ?_⟩
            exact ht
          · simp [hnv] at hc
            obtain ⟨k, ed, h1, h2, h3⟩ := hm.prev_edge n c hc
            exact ⟨k, ed, by simp [hnv, h1], by simp [hnv, h2], h3⟩
        lines_none := by
          intro n hprev
          by_cases hnv : n = t.1
          · simp [hnv] at hprev
          · simp [hnv] at hprev ⊢
            exact hm.lines_none n hprev
        visBound := by
          intro n hn
          obtain ⟨dv, hdv, hle⟩ := hm.visBound n hn
          have hnv : n ≠ t.1 := fun h => hvnv (h ▸ hn)
          exact ⟨dv, by simp [hnv, hdv], hle⟩
        pqBound := by
          intro e he
          rcases mem_heappush.mp he with rfl | he'
          · exact hdge
          · exact hm.pqBound e he'
        uVis := hm.uVis
        uDist := by simpa [Ne.symm hvu] using hm.uDist
        vis_closed_except := by
          intro n hn hnu t2 ht2
          have := hm.vis_closed_except n hn hnu t2 ht2
          by_cases hv2 : t2.1 = t.1
          · simp [hv2]
          · simpa [hv2] using this }
    · intro n hfin
      by_cases hnv : n = t.1
      · simp [hnv]
      · simpa [hnv] using hfin
    · simp
    · rw [heappush_length]

end Machinery2

section Machinery3

variable {G : Graph} {source u : Node} {d : Nat}

theorem foldRelax_mid {p : Nat} {pl : Option Line} (hwf : Wf G) :
    ∀ (l : List (Node × Nat × EdgeData)) {st : DState} {pq : List Entry},
      (∀ t ∈ l, t ∈ adjFlat G u) → Mid G source u d pq st →
      Mid G source u d (l.foldl (relaxOne p u d pl) (st, pq)).2
        (l.foldl (relaxOne p u d pl) (st, pq)).1
      ∧ (l.foldl (relaxOne p u d pl) (st, pq)).1.visited = st.visited
      ∧ (∀ n, st.distances n ≠ none →
          (l.foldl (relaxOne p u d pl) (st, pq)).1.distances n ≠ none)
      ∧ (∀ t ∈ l, (l.foldl (relaxOne p u d pl) (st, pq)).1.distances t.1 ≠ none)
      ∧ (l.foldl (relaxOne p u d pl) (st, pq)).2.length ≤ pq.length + l.length := by
  intro l
  induction l with
  | nil =>
    intro st pq _ hm
    exact ⟨hm, rfl, fun n h => h, by simp, by simp⟩
  | cons t l' ih =>
    intro st pq hsub hm
    obtain ⟨hm1, hvis1, hmono1, hfin1, hlen1⟩ :=
      relaxOne_mid hwf (hsub t (List.mem_cons_self t l')) hm
    have hsub' : ∀ t2 ∈ l', t2 ∈ adjFlat G u := fun t2 h2 => hsub t2 (List.mem_cons_of_mem t h2)
    obtain ⟨hm2, hvis2, hmono2, hfin2, hlen2⟩ := ih hsub' hm1
    have hpair : ((relaxOne p u d pl (st, pq) t).1, (relaxOne p u d pl (st, pq) t).2)
        = relaxOne p u d pl (st, pq) t := rfl
    rw [hpair] at hm2 hvis2 hmono2 hfin2 hlen2
    rw [List.foldl_cons]
    refine ⟨hm2, by rw [hvis2, hvis1], fun n h => hmono2 n (hmono1 n h), ?_, by rw [List.length_cons]; omega⟩
    intro t2 ht2
    rcases List.mem_cons.mp ht2 with rfl | h2
    · exact hmono2 t2.1 hfin1
    · exact hfin2 t2 h2

theorem pop_mid {e : Entry} {rest : List Entry} {st : DState}
    (hinv : Inv G source (e :: rest) st) (hnv : e.2.1 ∉ st.visited)
    (hnodes : e.2.1 ∈ G.nodes) :
    Mid G source e.2.1 e.1 rest
      { distances := st.distances, previous := st.previous
        previousLines := st.previousLines, previousEdgeKeys := st.previousEdgeKeys
        visited := st.visited ++ [e.2.1] } := by
  have hpair := List.pairwise_cons.mp hinv.sorted
  have hpqB : ∀ e2 ∈ rest, e.1 ≤ e2.1 := fun e2 h2 => entryLe_fst (hpair.1 e2 h2)
  have huDist : st.distances e.2.1 = some e.1 := by
    obtain ⟨dv, hdv, hdvle⟩ := hinv.key_ge e (List.mem_cons_self e rest)
    obtain ⟨pl, hplmem⟩ := hinv.witness e.2.1 hnv dv hdv
    rcases List.mem_cons.mp hplmem with heq | hmem
    · rw [hdv]
      have : dv = e.1 := congrArg Prod.fst heq
      rw [this]
    · have : e.1 ≤ dv := entryLe_fst (hpair.1 _ hmem)
      rw [hdv]
      have : dv = e.1 := by omega
      rw [this]
  exact {
    sorted := hpair.2
    mem_nodes := fun e2 h2 => hinv.mem_nodes e2 (List.mem_cons_of_mem e h2)
    key_ge := fun e2 h2 => hinv.key_ge e2 (List.mem_cons_of_mem e h2)
    witness := by
      intro n hn dv hdv
      have hnvold : n ∉ st.visited := fun h => hn (List.mem_append_left _ h)
      have hne : n ≠ e.2.1 := by
        intro h
        exact hn (List.mem_append_right _ (by simp [h]))
      obtain ⟨pl, hplmem⟩ := hinv.witness n hnvold dv hdv
      rcases List.mem_cons.mp hplmem with heq | hmem
      · exact absurd (congrArg (fun q => q.2.1) heq) hne
      · exact ⟨pl, hmem⟩
    vis_mem := by
      intro n hn
      rcases List.mem_append.mp hn with h | h
      · exact hinv.vis_mem n h
      · rw [List.mem_singleton.mp h]
        exact hnodes
    vis_nodup := by
      rw [List.nodup_append]
      exact ⟨hinv.vis_nodup, List.nodup_singleton _,
        fun a ha hb => hnv (List.mem_singleton.mp hb ▸ ha)⟩
    src_dist := hinv.src_dist
    prev_proc := fun n c hc => List.mem_append_left _ (hinv.prev_proc n c hc)
    prev_order := by
      intro n c hc hnvis
      have hcv : c ∈ st.visited := hinv.prev_proc n c hc
      rcases List.mem_append.mp hnvis with h | h
      · rw [List.indexOf_append_of_mem hcv, List.indexOf_append_of_mem h]
        exact hinv.prev_order n c hc h
      · have hnu : n = e.2.1 := List.mem_singleton.mp h
        have hnnotv : n ∉ st.visited := hnu ▸ hnv
        rw [List.indexOf_append_of_mem hcv, List.indexOf_append_of_not_mem hnnotv]
        have := List.indexOf_lt_length.mpr hcv
        simp
        omega
    prev_fin := hinv.prev_fin
    root_src := hinv.root_src
    reach := hinv.reach
    prev_edge := hinv.prev_edge
    lines_none := hinv.lines_none
    visBound := by
      intro n hn
      rcases List.mem_append.mp hn with h | h
      · obtain ⟨dv, hdv, hble⟩ := hinv.vis_fin n h
        exact ⟨dv, hdv, hble e (List.mem_cons_self e rest)⟩
      · rw [List.mem_singleton.mp h]
        exact ⟨e.1, huDist, le_refl _⟩
    pqBound := hpqB
    uVis := List.mem_append_right _ (by simp)
    uDist := huDist
    vis_closed_except := by
      intro n hn hne t2 ht2
      rcases List.mem_append.mp hn with h | h
      · exact hinv.vis_closed n h t2 ht2
      · exact absurd (List.mem_singleton.mp h) hne }

theorem mid_to_inv {pq : List Entry} {st : DState} (hm : Mid G source u d pq st)
    (hcu : ∀ t ∈ adjFlat G u, st.distances t.1 ≠ none) : Inv G source pq st := by
  refine { toCore := hm.toCore, vis_fin := ?_, vis_closed := ?_ }
  · intro n hn
    obtain ⟨dv, hdv, hle⟩ := hm.visBound n hn
    exact ⟨dv, hdv, fun e he => le_trans hle (hm.pqBound e he)⟩
  · intro n hn t2 ht2
    by_cases hnu : n = u
    · exact hcu t2 (hnu ▸ ht2)
    · exact hm.vis_closed_except n hn hnu t2 ht2

end Machinery3

section Machinery4

variable {G : Graph} {source : Node}

theorem inv_skip {e : Entry} {rest : List Entry} {st : DState}
    (hinv : Inv G source (e :: rest) st) (hv : e.2.1 ∈ st.visited) :
    Inv G source rest st := by
  refine { toCore := ?_, vis_fin := ?_, vis_closed := hinv.vis_closed }
  · refine { hinv.toCore with sorted := ?_, mem_nodes := ?_, key_ge := ?_, witness := ?_ }
    · exact (List.pairwise_cons.mp hinv.sorted).2
    · exact fun e2 h2 => hinv.mem_nodes e2 (List.mem_cons_of_mem e h2)
    · exact fun e2 h2 => hinv.key_ge e2 (List.mem_cons_of_mem e h2)
    · intro n hn dv hdv
      obtain ⟨pl, hplmem⟩ := hinv.witness n hn dv hdv
      rcases List.mem_cons.mp hplmem with heq | hmem
      · have hne : n = e.2.1 := by rw [← heq]
        exact absurd (by rw [hne]; exact hv) hn
      · exact ⟨pl, hmem⟩
  · intro n hn
    obtain ⟨dv, hdv, hle⟩ := hinv.vis_fin n hn
    exact ⟨dv, hdv, fun e2 h2 => hle e2 (List.mem_cons_of_mem e h2)⟩

theorem inv_to_final {pq : List Entry} {st : DState} (hinv : Inv G source pq st) :
    Final G source st := by
  exact {
    vis_mem := hinv.vis_mem
    vis_nodup := hinv.vis_nodup
    vis_fin2 := by
      intro n hn
      obtain ⟨dv, hdv, _⟩ := hinv.vis_fin n hn
      rw [hdv]
      simp
    vis_closed := hinv.vis_closed
    src_dist := hinv.src_dist
    prev_proc := hinv.prev_proc
    prev_order := hinv.prev_order
    prev_fin := hinv.prev_fin
    root_src := hinv.root_src
    reach := hinv.reach
    prev_edge := hinv.prev_edge
    lines_none := hinv.lines_none }

theorem cfpLoop_spec (hwf : Wf G) (hsrc : source ∈ G.nodes) (p : Nat) (target : Node) :
    ∀ (fuel : Nat) (pq : List Entry) (st : DState), Inv G source pq st →
      phi G pq st < fuel →
      ∃ st2, cfpLoop G target p fuel pq st = .ok st2
        ∧ Final G source st2
        ∧ (st2.distances target ≠ none ∨ AllFinVis st2) := by
  intro fuel
  induction fuel with
  | zero => intro pq st _ h; omega
  | succ fuel ih =>
    intro pq st hinv hphi
    match pq with
    | [] =>
      refine ⟨st, rfl, inv_to_final hinv, Or.inr ?_⟩
      intro n hfin
      by_cases hn : n ∈ st.visited
      · exact hn
      · cases hdv : st.distances n with
        | none => exact absurd hdv hfin
        | some dv =>
          obtain ⟨pl, hplmem⟩ := hinv.witness n hn dv hdv
          simp at hplmem
    | e :: rest =>
      simp only [cfpLoop]
      by_cases ht : e.2.1 = target
      · rw [if_pos ht]
        refine ⟨st, rfl, inv_to_final hinv, Or.inl ?_⟩
        obtain ⟨dv, hdv, _⟩ := hinv.key_ge e (List.mem_cons_self e rest)
        rw [← ht, hdv]
        simp
      · rw [if_neg ht]
        by_cases hv : e.2.1 ∈ st.visited
        · rw [if_pos hv]
          refine ih rest st (inv_skip hinv hv) ?_
          unfold phi at hphi ⊢
          rw [List.length_cons] at hphi
          omega
        · rw [if_neg hv]
          have hnodes : e.2.1 ∈ G.nodes := by
            rcases hinv.mem_nodes e (List.mem_cons_self e rest) with h | h
            · exact h
            · exact h ▸ hsrc
          rw [if_pos hnodes]
          simp only [relaxAll]
          have hmid := pop_mid hinv hv hnodes
          obtain ⟨hm2, hvis2, _, hfin2, hlen2⟩ :=
            foldRelax_mid hwf (adjFlat G e.2.1) (fun t h2 => h2) hmid
          refine ih _ _ (mid_to_inv hm2 hfin2) ?_
          unfold phi at hphi ⊢
          rw [List.length_cons] at hphi
          rw [hvis2]
          dsimp only
          have hrem := remAdjSize_remove (G := G) hnodes hv
          omega

end Machinery4

section Machinery5

variable {G : Graph} {source : Node}

theorem final_complete {st : DState} (hf : Final G source st) (hall : AllFinVis st) :
    ∀ n, Reach G source n → st.distances n ≠ none := by
  intro n hr
  induction hr with
  | refl => rw [hf.src_dist]; simp
  | tail hr hedge ih =>
    obtain ⟨t, ht, rfl⟩ := hedge
    exact hf.vis_closed _ (hall _ ih) t ht

theorem pathChain_append {st : DState} :
    ∀ (path : List Node) (keys : List (Option Nat)) (c n : Node),
      PathChain st path keys → path.getLast? = some c → st.previous n = some c →
      PathChain st (path ++ [n]) (keys ++ [st.previousEdgeKeys n]) := by
  intro path
  induction path with
  | nil => intro keys c n hpc _ _; cases keys <;> exact absurd hpc (by simp [PathChain])
  | cons a rest ih =>
    intro keys c n hpc hlast hprev
    cases rest with
    | nil =>
      cases keys with
      | nil =>
        have hca : c = a := by simpa using hlast.symm
        subst hca
        exact ⟨hprev, rfl, trivial⟩
      | cons k ks => exact absurd hpc (by simp [PathChain])
    | cons b rest2 =>
      cases keys with
      | nil => exact absurd hpc (by simp [PathChain])
      | cons k ks =>
        obtain ⟨h1, h2, h3⟩ := hpc
        have hlast2 : (b :: rest2).getLast? = some c := by
          rwa [List.getLast?_cons_cons] at hlast
        exact ⟨h1, h2, ih ks c n h3 hlast2 hprev⟩

theorem reconstruct_spec {st : DState} (hf : Final G source st) :
    ∀ (fuel : Nat) (n : Node), n ∈ G.nodes → st.distances n ≠ none →
      (if n ∈ st.visited then st.visited.indexOf n + 1 else st.visited.length + 1) < fuel →
      ∃ path keys, reconstruct G st fuel n = .ok (path, keys)
        ∧ path ≠ [] ∧ path.head? = some source ∧ path.getLast? = some n
        ∧ PathChain st path keys := by
  intro fuel
  induction fuel with
  | zero => intro n _ _ h; omega
  | succ fuel ih =>
    intro n hn hfin hmeas
    simp only [reconstruct]
    rw [if_pos hn]
    cases hprev : st.previous n with
    | none =>
      have hns : n = source := hf.root_src n hprev hfin
      exact ⟨[n], [], rfl, by simp, by simp [hns], by simp, trivial⟩
    | some c =>
      have hcv : c ∈ st.visited := hf.prev_proc n c hprev
      have hcn : c ∈ G.nodes := hf.vis_mem c hcv
      have hcfin : st.distances c ≠ none := hf.vis_fin2 c hcv
      have hmeas2 :
          (if c ∈ st.visited then st.visited.indexOf c + 1 else st.visited.length + 1) < fuel := by
        rw [if_pos hcv]
        by_cases hnv : n ∈ st.visited
        · rw [if_pos hnv] at hmeas
          have := hf.prev_order n c hprev hnv
          omega
        · rw [if_neg hnv] at hmeas
          have := List.indexOf_lt_length.mpr hcv
          omega
      obtain ⟨path, keys, hrec, hne, hhead, hlast, hchain⟩ := ih c hcn hcfin hmeas2
      dsimp only
      rw [hrec]
      refine ⟨path ++ [n], keys ++ [st.previousEdgeKeys n], rfl, by simp, ?_,
        by simp [List.getLast?_concat], ?_⟩
      · cases path with
        | nil => exact absurd rfl hne
        | cons a rest => simpa using hhead
      · exact pathChain_append path keys c n hchain hlast hprev

end Machinery5

section Machinery6

variable {G : Graph}

theorem inv_init (G : Graph) (source : Node) :
    Inv G source [(0, source, none)]
      { distances := fun n => if n = source then some 0 else none
        previous := fun _ => none
        previousLines := fun _ => none
        previousEdgeKeys := fun _ => none
        visited := [] } := by
  refine { toCore := ?_, vis_fin := by simp, vis_closed := by simp }
  exact {
    sorted := List.sorted_singleton _
    mem_nodes := by intro e he; simp at he; simp [he]
    key_ge := by intro e he; simp at he; simp [he]
    witness := by
      intro n _ dv hdv
      by_cases hns : n = source
      · subst hns
        simp at hdv
        exact ⟨none, by simp [hdv]⟩
      · simp [hns] at hdv
    vis_mem := by simp
    vis_nodup := List.nodup_nil
    src_dist := by simp
    prev_proc := by simp
    prev_order := by simp
    prev_fin := by simp
    root_src := by
      intro n hp hfin
      by_cases hns : n = source
      · exact hns
      · simp [hns] at hfin
    reach := by
      intro n hfin
      by_cases hns : n = source
      · subst hns; exact Reach.refl n
      · simp [hns] at hfin
    prev_edge := by simp
    lines_none := by simp }

theorem phi_init_lt (G : Graph) (source : Node) :
    phi G [(0, source, none)]
      { distances := fun n => if n = source then some 0 else none
        previous := fun _ => none
        previousLines := fun _ => none
        previousEdgeKeys := fun _ => none
        visited := [] } < loopFuel G := by
  simp [phi, remAdjSize, loopFuel]

theorem custom_ok (hwf : Wf G) {origin destination : Node} {p : Nat}
    (ho : origin ∈ G.nodes) (hd : destination ∈ G.nodes)
    (hr : Reach G origin destination) :
    ∃ path keys st2, custom_fastest_path G origin destination p = .ok (path, st2.previousLines, keys)
      ∧ Final G origin st2 ∧ path ≠ [] ∧ path.head? = some origin
      ∧ path.getLast? = some destination ∧ PathChain st2 path keys := by
  obtain ⟨st2, hloop, hfin, hdisj⟩ :=
    cfpLoop_spec hwf ho p destination (loopFuel G) [(0, origin, none)] _
      (inv_init G origin) (phi_init_lt G origin)
  have hdfin : st2.distances destination ≠ none := by
    rcases hdisj with h | h
    · exact h
    · exact final_complete hfin h destination hr
  simp only [custom_fastest_path]
  rw [hloop]
  dsimp only
  rw [if_pos (Or.inl hd)]
  cases hdv : st2.distances destination with
  | none => exact absurd hdv hdfin
  | some dv =>
    have hmeas : (if destination ∈ st2.visited then st2.visited.indexOf destination + 1
        else st2.visited.length + 1) < G.nodes.length + 2 := by
      have hsub : st2.visited.length ≤ G.nodes.length := by
        have hsp : List.Subperm st2.visited G.nodes :=
          List.Nodup.subperm hfin.vis_nodup (fun n hn => hfin.vis_mem n hn)
        exact List.Subperm.length_le hsp
      by_cases hdvis : destination ∈ st2.visited
      · rw [if_pos hdvis]
        have := List.indexOf_lt_length.mpr hdvis
        omega
      · rw [if_neg hdvis]
        omega
    obtain ⟨path, keys, hrec, hne, hhead, hlast, hchain⟩ :=
      reconstruct_spec hfin (G.nodes.length + 2) destination hd hdfin hmeas
    rw [hrec]
    exact ⟨path, keys, st2, rfl, hfin, hne, hhead, hlast, hchain⟩

theorem custom_noreach (hwf : Wf G) {origin destination : Node} {p : Nat}
    (ho : origin ∈ G.nodes) (hd : destination ∈ G.nodes)
    (hnr : ¬ Reach G origin destination) :
    custom_fastest_path G origin destination p = .error .noPath := by
  obtain ⟨st2, hloop, hfin, _⟩ :=
    cfpLoop_spec hwf ho p destination (loopFuel G) [(0, origin, none)] _
      (inv_init G origin) (phi_init_lt G origin)
  simp only [custom_fastest_path]
  rw [hloop]
  dsimp only
  rw [if_pos (Or.inl hd)]
  cases hdv : st2.distances destination with
  | none => rfl
  | some dv =>
    exact absurd (hfin.reach destination (by rw [hdv]; simp)) hnr

end Machinery6

section Machinery7

variable {G : Graph}

theorem find?_assoc_unique {β : Type} {κ : Type} [DecidableEq κ] :
    ∀ (l : List (κ × β)) (p : κ × β), (l.map Prod.fst).Nodup → p ∈ l →
      l.find? (fun q => q.1 == p.1) = some p := by
  intro l
  induction l with
  | nil => intro p _ hp; simp at hp
  | cons h rest ih =>
    intro p hnd hp
    rw [List.map_cons, List.nodup_cons] at hnd
    by_cases hk : h.1 = p.1
    · have hph : p = h := by
        rcases List.mem_cons.mp hp with rfl | hmem
        · rfl
        · exfalso
          exact hnd.1 (hk ▸ List.mem_map_of_mem Prod.fst hmem)
      rw [List.find?_cons_of_pos]
      · rw [hph]
      · simp [hk]
    · rw [List.find?_cons_of_neg]
      · refine ih p hnd.2 ?_
        rcases List.mem_cons.mp hp with rfl | hmem
        · exact absurd rfl hk
        · exact hmem
      · simp [hk]

theorem adj_keys_nodup (hwf : Wf G) (u : Node) : ((G.adj u).map Prod.fst).Nodup := by
  unfold Graph.adj
  cases hfind : G.adjL.find? (fun q => q.1 == u) with
  | none => simp
  | some pe => exact (hwf pe (List.mem_of_find?_eq_some hfind)).2

theorem getEdgeData_of_adjFlat (hwf : Wf G) {a b : Node} {k : Nat} {ed : EdgeData}
    (ha : a ∈ G.nodes) (hmem : (b, k, ed) ∈ adjFlat G a) :
    getEdgeData G a b (some k) = .ok ed := by
  obtain ⟨_, pr, hpr, hprb, hke⟩ := adjFlat_mem hwf hmem
  unfold getEdgeData
  rw [if_pos ha]
  have hfind : (G.adj a).find? (fun q => q.1 == b) = some pr := by
    have := find?_assoc_unique (G.adj a) pr (adj_keys_nodup hwf a) hpr
    rwa [hprb] at this
  rw [hfind]
  dsimp only
  have hknd : (pr.2.map Prod.fst).Nodup := (adj_wf hwf hpr).2
  have hfind2 : pr.2.find? (fun q => q.1 == k) = some (k, ed) :=
    find?_assoc_unique pr.2 (k, ed) hknd hke
  rw [hfind2]

theorem updateLastSeg_length (f : Segment → Segment) :
    ∀ l : List Segment, (updateLastSeg f l).length = l.length := by
  intro l
  induction l with
  | nil => rfl
  | cons s rest ih =>
    cases rest with
    | nil => rfl
    | cons s2 rest2 => simpa [updateLastSeg] using ih

theorem updateLastSeg_dropLast (f : Segment → Segment) :
    ∀ l : List Segment, (updateLastSeg f l).dropLast = l.dropLast := by
  intro l
  induction l with
  | nil => rfl
  | cons s rest ih =>
    cases rest with
    | nil => rfl
    | cons s2 rest2 =>
      simp only [updateLastSeg]
      rw [List.dropLast_cons_of_ne_nil, List.dropLast_cons_of_ne_nil]
      · rw [show updateLastSeg f (s2 :: rest2) = updateLastSeg f (s2 :: rest2) from rfl] at ih
        rw [ih]
      · simp
      · cases rest2 <;> simp [updateLastSeg]

theorem getLast?_cons_ne {α : Type} (a : α) (l : List α) (h : l ≠ []) :
    (a :: l).getLast? = l.getLast? := by
  cases l with
  | nil => exact absurd rfl h
  | cons b bs => exact List.getLast?_cons_cons

theorem updateLastSeg_ne_nil (f : Segment → Segment) {l : List Segment} (h : l ≠ []) :
    updateLastSeg f l ≠ [] := by
  intro hcon
  have hlen := updateLastSeg_length f l
  rw [hcon] at hlen
  cases l with
  | nil => exact h rfl
  | cons x xs => simp at hlen

theorem updateLastSeg_getLast? (f : Segment → Segment) :
    ∀ l : List Segment, (updateLastSeg f l).getLast? = l.getLast?.map f := by
  intro l
  induction l with
  | nil => rfl
  | cons s rest ih =>
    cases rest with
    | nil => rfl
    | cons s2 rest2 =>
      rw [show updateLastSeg f (s :: s2 :: rest2) = s :: updateLastSeg f (s2 :: rest2) from rfl,
        getLast?_cons_ne _ _ (updateLastSeg_ne_nil f (by simp)), ih, List.getLast?_cons_cons]

theorem updateLastSeg_headFrom (f : Segment → Segment)
    (hf : ∀ sg, (f sg).from_station = sg.from_station) :
    ∀ l : List Segment,
      ((updateLastSeg f l).head?).map Segment.from_station
        = (l.head?).map Segment.from_station := by
  intro l
  cases l with
  | nil => rfl
  | cons s rest =>
    cases rest with
    | nil => simp [updateLastSeg, hf]
    | cons s2 rest2 => simp [updateLastSeg]

theorem updateLastSeg_timeSum (w : Nat) :
    ∀ l : List Segment, l ≠ [] →
      ((updateLastSeg (fun sg => { sg with time := sg.time + w }) l).map Segment.time).sum
        = (l.map Segment.time).sum + w := by
  intro l
  induction l with
  | nil => intro h; exact absurd rfl h
  | cons s rest ih =>
    intro _
    cases rest with
    | nil => simp [updateLastSeg]
    | cons s2 rest2 =>
      simp only [updateLastSeg, List.map_cons, List.sum_cons]
      have h2 := ih (by simp)
      simp only [List.map_cons, List.sum_cons] at h2
      omega

theorem updateLastSeg_toSum :
    ∀ (l : List Segment) (x : Node),
      ((updateLastSeg (fun sg => { sg with to_station := some x }) l).map Segment.time).sum
        = (l.map Segment.time).sum := by
  intro l
  induction l with
  | nil => intro x; rfl
  | cons s rest ih =>
    intro x
    cases rest with
    | nil => simp [updateLastSeg]
    | cons s2 rest2 =>
      simp only [updateLastSeg, List.map_cons, List.sum_cons]
      rw [ih x]
      simp [List.map_cons, List.sum_cons]

end Machinery7

section Machinery8

variable {G : Graph}

theorem updateLastSeg_concat (f : Segment → Segment) :
    ∀ (l : List Segment) (b : Segment), updateLastSeg f (l ++ [b]) = l ++ [f b] := by
  intro l
  induction l with
  | nil => intro b; rfl
  | cons s rest ih =>
    intro b
    cases rest with
    | nil => rfl
    | cons q qs =>
      show s :: updateLastSeg f ((q :: qs) ++ [b]) = s :: ((q :: qs) ++ [f b])
      rw [ih b]

theorem updateLastSeg_struct (f : Segment → Segment) :
    ∀ (l : List Segment), l ≠ [] →
      ∃ lastv, l.getLast? = some lastv ∧ updateLastSeg f l = l.dropLast ++ [f lastv] := by
  intro l
  induction l with
  | nil => intro h; exact absurd rfl h
  | cons s rest ih =>
    intro _
    cases rest with
    | nil => exact ⟨s, rfl, rfl⟩
    | cons s2 rest2 =>
      obtain ⟨lastv, hl, hu⟩ := ih (by simp)
      refine ⟨lastv, by rw [List.getLast?_cons_cons]; exact hl, ?_⟩
      show s :: updateLastSeg f (s2 :: rest2) = (s :: s2 :: rest2).dropLast ++ [f lastv]
      rw [hu, show (s :: s2 :: rest2).dropLast = s :: (s2 :: rest2).dropLast from
        List.dropLast_cons_of_ne_nil (by simp)]
      rfl

theorem headFrom_append_updateTo (x : Node) (l : List Segment) (hne : l ≠ []) (b : Segment) :
    ((updateLastSeg (fun sg => { sg with to_station := some x }) l ++ [b]).head?).map
        Segment.from_station
      = (l.head?).map Segment.from_station := by
  rw [List.head?_append]
  cases hh : (updateLastSeg (fun sg => { sg with to_station := some x }) l).head? with
  | none => exact absurd (List.head?_eq_none_iff.mp hh) (updateLastSeg_ne_nil _ hne)
  | some q =>
    have h2 := updateLastSeg_headFrom
      (fun sg => { sg with to_station := some x }) (fun sg => rfl) l
    rw [hh] at h2
    rw [← h2]
    rfl

theorem sumLoop_spec (hwf : Wf G) {origin : Node} {st : DState} (hf : Final G origin st)
    (p : Nat) :
    ∀ (restPath : List Node) (x : Node) (ks : List (Option Nat)) (s : SumState) (W : Nat),
      PathChain st (x :: restPath) ks →
      x ∈ G.nodes →
      s.current_line = st.previousLines x →
      s.current_line ≠ none →
      s.segments ≠ [] →
      (s.segments.map Segment.time).sum = W →
      s.total_time = W + p * s.transfers.length →
      s.segments.length = s.transfers.length + 1 →
      s.lines_used.length = s.segments.length →
      (∀ sg ∈ s.segments.dropLast, sg.to_station ≠ none) →
      (s.segments.getLast?).map Segment.to_station = some none →
      ∃ s2 ws, pathEdgeWeights G (x :: restPath) ks = some ws
        ∧ sumLoop G p st.previousLines x restPath ks s = .ok s2
        ∧ s2.current_line ≠ none
        ∧ s2.segments ≠ []
        ∧ (s2.segments.map Segment.time).sum = W + ws.sum
        ∧ s2.total_time = W + ws.sum + p * s2.transfers.length
        ∧ s2.segments.length = s2.transfers.length + 1
        ∧ s2.lines_used.length = s2.segments.length
        ∧ (∀ sg ∈ s2.segments.dropLast, sg.to_station ≠ none)
        ∧ (s2.segments.getLast?).map Segment.to_station = some none
        ∧ (s2.segments.head?).map Segment.from_station
            = (s.segments.head?).map Segment.from_station := by
  intro restPath
  induction restPath with
  | nil =>
    intro x ks s W hchain hx hcl hclne hsne hsum htot hslen hllen hdrop hlast
    cases ks with
    | nil =>
      exact ⟨s, [], rfl, rfl, hclne, hsne, by simpa using hsum, by simpa using htot,
        hslen, hllen, hdrop, hlast, rfl⟩
    | cons k ks2 => exact absurd hchain (by simp [PathChain])
  | cons y rest2 ih =>
    intro x ks s W hchain hx hcl hclne hsne hsum htot hslen hllen hdrop hlast
    cases ks with
    | nil => exact absurd hchain (by simp [PathChain])
    | cons k ks2 =>
      obtain ⟨hprev, hkey, hchain2⟩ := hchain
      obtain ⟨k0, ed, hpek, hpl, hflat⟩ := hf.prev_edge y x hprev
      have hk0 : k = some k0 := by rw [← hkey, hpek]
      subst hk0
      have hged : getEdgeData G x y (some k0) = .ok ed := getEdgeData_of_adjFlat hwf hx hflat
      have hy : y ∈ G.nodes := adjFlat_mem_nodes hwf hflat
      simp only [sumLoop]
      rw [hged]
      dsimp only
      rw [if_pos hy]
      rw [hpl]
      by_cases hbr : (some ed.line : Option Line) ≠ s.current_line
      · -- transfer branch: a new segment is opened
        rw [if_pos hbr]
        cases hclv : s.current_line with
        | none => exact absurd hclv hclne
        | some cl =>
          dsimp only
          obtain ⟨lastv, hlv, hustruct⟩ :=
            updateLastSeg_struct
              (fun sg => { sg with to_station := some x }) s.segments hsne
          set sNew : Segment :=
            { from_station := x, to_station := none, line := some ed.line, time := 0 } with hsNew
          have hupd :
              updateLastSeg (fun sg => { sg with time := sg.time + ed.weight })
                (updateLastSeg (fun sg => { sg with to_station := some x }) s.segments
                  ++ [sNew])
              = updateLastSeg (fun sg => { sg with to_station := some x }) s.segments
                  ++ [{ sNew with time := sNew.time + ed.weight }] :=
            updateLastSeg_concat _ _ _
          have hnewsum :
              ((updateLastSeg (fun sg => { sg with to_station := some x }) s.segments
                ++ [{ sNew with time := sNew.time + ed.weight }]).map Segment.time).sum
              = W + ed.weight := by
            rw [List.map_append, List.sum_append]
            rw [updateLastSeg_toSum s.segments x, hsum]
            simp [hsNew]
          obtain ⟨s3, ws, hpew, hrun, hcl3, hs3ne, hsum3, htot3, hslen3, hllen3,
              hdrop3, hlast3, hhead3⟩ :=
            ih y ks2
              { lines_used := s.lines_used ++ [some ed.line]
                current_line := some ed.line
                transfers := s.transfers ++ [x]
                total_time := s.total_time + ed.weight + p
                segments :=
                  updateLastSeg (fun sg => { sg with to_station := some x }) s.segments
                    ++ [{ sNew with time := sNew.time + ed.weight }] }
              (W + ed.weight) hchain2 hy (by simp [hpl]) (by simp) (by simp)
              hnewsum
              (by
                dsimp only
                rw [htot]
                simp [Nat.mul_add]
                omega)
              (by
                dsimp only
                rw [List.length_append, List.length_append, updateLastSeg_length]
                simp [hslen])
              (by
                dsimp only
                rw [List.length_append, List.length_append, updateLastSeg_length]
                simp [hllen, hslen])
              (by
                dsimp only
                rw [List.dropLast_concat]
                intro sg hsg
                rw [hustruct] at hsg
                rcases List.mem_append.mp hsg with hin | hin
                · exact hdrop sg hin
                · rw [List.mem_singleton.mp hin]
                  simp)
              (by
                dsimp only
                rw [List.getLast?_concat]
                rfl)
          refine ⟨s3, ed.weight :: ws, ?_, ?_, hcl3, hs3ne, ?_, ?_, hslen3, hllen3,
            hdrop3, hlast3, ?_⟩
          · simp only [pathEdgeWeights]
            rw [hged, hpew]
          · rw [← hrun]
            congr 1
            rw [hupd]
          · rw [hsum3]
            simp
            omega
          · rw [htot3]
            simp
            omega
          · rw [hhead3]
            exact headFrom_append_updateTo x s.segments hsne _
      · -- same line: only the running segment time grows
        rw [if_neg hbr]
        push_neg at hbr
        obtain ⟨lastv, hlv, hustruct⟩ :=
          updateLastSeg_struct
            (fun sg => { sg with time := sg.time + ed.weight }) s.segments hsne
        have hlvto : lastv.to_station = none := by
          rw [hlv] at hlast
          simpa using hlast
        obtain ⟨s3, ws, hpew, hrun, hcl3, hs3ne, hsum3, htot3, hslen3, hllen3,
            hdrop3, hlast3, hhead3⟩ :=
          ih y ks2
            { lines_used := s.lines_used
              current_line := s.current_line
              transfers := s.transfers
              total_time := s.total_time + ed.weight
              segments :=
                updateLastSeg (fun sg => { sg with time := sg.time + ed.weight }) s.segments }
            (W + ed.weight) hchain2 hy (by dsimp only; rw [← hbr, hpl]) (by simpa using hclne)
            (by dsimp only; exact updateLastSeg_ne_nil _ hsne)
            (by dsimp only; rw [updateLastSeg_timeSum ed.weight s.segments hsne, hsum])
            (by dsimp only; rw [htot]; omega)
            (by dsimp only; rw [updateLastSeg_length]; exact hslen)
            (by dsimp only; rw [updateLastSeg_length]; exact hllen)
            (by
              dsimp only
              rw [updateLastSeg_dropLast]
              exact hdrop)
            (by
              dsimp only
              rw [updateLastSeg_getLast?, hlv]
              simp [hlvto])
        refine ⟨s3, ed.weight :: ws, ?_, ?_, hcl3, hs3ne, ?_, ?_, hslen3, hllen3,
          hdrop3, hlast3, ?_⟩
        · simp only [pathEdgeWeights]
          rw [hged, hpew]
        · rw [← hrun]
        · rw [hsum3]
          simp
          omega
        · rw [htot3]
          simp
          omega
        · rw [hhead3]
          exact updateLastSeg_headFrom
            (fun sg => { sg with time := sg.time + ed.weight }) (fun sg => rfl) s.segments

end Machinery8

section Machinery9

variable {G : Graph}

theorem summarize_spec (hwf : Wf G) {origin dest : Node} {st : DState} (hf : Final G origin st)
    (p : Nat) {a b : Node} {rest : List Node} {keys : List (Option Nat)}
    (hchain : PathChain st (a :: b :: rest) keys)
    (hlastv : (a :: b :: rest).getLast? = some dest)
    (ha : a ∈ G.nodes) :
    ∃ r ws, summarize G p st.previousLines (a :: b :: rest) keys = .ok r
      ∧ r.path = a :: b :: rest
      ∧ r.num_transfers = r.transfers.length
      ∧ pathEdgeWeights G (a :: b :: rest) keys = some ws
      ∧ r.total_time = ws.sum + r.num_transfers * p
      ∧ r.transfer_time = r.num_transfers * p
      ∧ r.travel_time = ws.sum
      ∧ r.segments ≠ []
      ∧ (r.segments.head?).map Segment.from_station = some a
      ∧ (r.segments.getLast?).map Segment.to_station = some (some dest)
      ∧ (∀ sg ∈ r.segments, sg.to_station ≠ none)
      ∧ r.segments.length = r.num_transfers + 1
      ∧ r.lines_used.length = r.segments.length
      ∧ (r.segments.map Segment.time).sum = r.travel_time
      ∧ r.total_stations = (a :: b :: rest).length := by
  cases keys with
  | nil => exact absurd hchain (by simp [PathChain])
  | cons k ks =>
    obtain ⟨hprev, hkey, hchain2⟩ := hchain
    obtain ⟨k0, ed, hpek, hpl, hflat⟩ := hf.prev_edge b a hprev
    have hk0 : k = some k0 := by rw [← hkey, hpek]
    subst hk0
    have hged : getEdgeData G a b (some k0) = .ok ed := getEdgeData_of_adjFlat hwf ha hflat
    have hb : b ∈ G.nodes := adjFlat_mem_nodes hwf hflat
    obtain ⟨s3, ws, hpew, hrun, hcl3, hs3ne, hsum3, htot3, hslen3, hllen3,
        hdrop3, hlast3, hhead3⟩ :=
      sumLoop_spec hwf hf p rest b ks
        { lines_used := [st.previousLines b]
          current_line := st.previousLines b
          transfers := []
          total_time := 0 + ed.weight
          segments := [{ from_station := a, to_station := none,
                         line := st.previousLines b, time := 0 + ed.weight }] }
        ed.weight hchain2 hb rfl (by simp [hpl]) (by simp)
        (by simp) (by simp) (by simp) (by simp) (by simp) (by simp)
    simp only [summarize, sumLoop]
    rw [hged]
    dsimp only
    rw [if_pos hb]
    have hbr : (st.previousLines b ≠ (none : Option Line)) := by simp [hpl]
    rw [if_pos hbr]
    dsimp only
    rw [show (updateLastSeg (fun sg => { sg with time := sg.time + ed.weight })
        ([] ++ [{ from_station := a, to_station := none, line := st.previousLines b,
                  time := 0 }])
        = [{ from_station := a, to_station := none, line := st.previousLines b,
             time := 0 + ed.weight }]) from rfl]
    rw [List.nil_append]
    rw [hrun]
    dsimp only
    rw [hlastv]
    obtain ⟨lastv, hlv, hustruct⟩ :=
      updateLastSeg_struct (fun sg => { sg with to_station := some dest }) s3.segments hs3ne
    refine ⟨_, ed.weight :: ws, rfl, rfl, rfl, ?_, ?_, rfl, ?_, ?_, ?_, ?_, ?_, ?_, ?_, ?_, rfl⟩
    · simp only [pathEdgeWeights]
      rw [hged, hpew]
    · dsimp only
      rw [htot3, Nat.mul_comm p s3.transfers.length]
      simp only [List.sum_cons]
    · dsimp only
      rw [htot3, Nat.mul_comm p s3.transfers.length]
      simp only [List.sum_cons]
      omega
    · dsimp only
      exact updateLastSeg_ne_nil _ hs3ne
    · dsimp only
      rw [updateLastSeg_headFrom (fun sg => { sg with to_station := some dest })
        (fun sg => rfl) s3.segments]
      rw [hhead3]
      rfl
    · dsimp only
      rw [updateLastSeg_getLast?, hlv]
      rfl
    · dsimp only
      intro sg hsg
      rw [hustruct] at hsg
      rcases List.mem_append.mp hsg with hin | hin
      · exact hdrop3 sg hin
      · rw [List.mem_singleton.mp hin]
        simp
    · dsimp only
      rw [updateLastSeg_length]
      exact hslen3
    · dsimp only
      rw [updateLastSeg_length]
      exact hllen3
    · dsimp only
      rw [updateLastSeg_toSum s3.segments dest, hsum3, htot3,
        Nat.mul_comm p s3.transfers.length]
      omega

end Machinery9

section Machinery10

variable {G : Graph}

theorem find_rich (hwf : Wf G) {o d : Node} (p : Nat) (ho : o ∈ G.nodes) (hd : d ∈ G.nodes)
    (hne : o ≠ d) (hr : Reach G o d) :
    ∃ r keys ws, find_fastest_route G o d p = .ok (some r)
      ∧ r.path.head? = some o ∧ r.path.getLast? = some d ∧ 2 ≤ r.path.length
      ∧ r.num_transfers = r.transfers.length
      ∧ pathEdgeWeights G r.path keys = some ws
      ∧ r.total_time = ws.sum + r.num_transfers * p
      ∧ r.transfer_time = r.num_transfers * p
      ∧ r.travel_time = ws.sum
      ∧ r.segments ≠ []
      ∧ (r.segments.head?).map Segment.from_station = some o
      ∧ (r.segments.getLast?).map Segment.to_station = some (some d)
      ∧ (∀ sg ∈ r.segments, sg.to_station ≠ none)
      ∧ r.segments.length = r.num_transfers + 1
      ∧ r.lines_used.length = r.segments.length
      ∧ (r.segments.map Segment.time).sum = r.travel_time
      ∧ r.total_stations = r.path.length := by
  obtain ⟨path, keys, st2, hcust, hfin, hpne, hhead, hlast, hchain⟩ := custom_ok hwf ho hd hr
  cases path with
  | nil => exact absurd rfl hpne
  | cons a rest0 =>
    have ha : a = o := by simpa using hhead
    subst ha
    cases rest0 with
    | nil => exact absurd (by simpa using hlast) hne
    | cons b rest =>
      obtain ⟨r, ws, hsum, hrpath, hrnum, hpew, htot, htransf, htravel, hsegne,
          hheadseg, hlastseg, hallto, hseglen, hlineln, hsegsum, hstations⟩ :=
        summarize_spec hwf hfin p hchain hlast ho
      refine ⟨r, keys, ws, ?_, ?_, ?_, ?_, hrnum, ?_, htot, htransf, htravel, hsegne,
        hheadseg, hlastseg, hallto, hseglen, hlineln, hsegsum, ?_⟩
      · simp only [find_fastest_route]
        rw [hcust]
        dsimp only
        rw [hsum]
      · rw [hrpath]
        exact hhead
      · rw [hrpath]
        exact hlast
      · rw [hrpath]
        simp
      · rw [hrpath]
        exact hpew
      · rw [hstations, hrpath]

theorem custom_absent (hwf : Wf G) {origin destination : Node} {p : Nat}
    (h : origin ∉ G.nodes ∨ destination ∉ G.nodes) :
    custom_fastest_path G origin destination p = .error .keyError := by
  by_cases ho : origin ∈ G.nodes
  · have hd : destination ∉ G.nodes := by
      rcases h with h | h
      · exact absurd ho h
      · exact h
    have hdo : destination ≠ origin := fun hcon => hd (hcon ▸ ho)
    obtain ⟨st2, hloop, _, _⟩ :=
      cfpLoop_spec hwf ho p destination (loopFuel G) [(0, origin, none)] _
        (inv_init G origin) (phi_init_lt G origin)
    simp only [custom_fastest_path]
    rw [hloop]
    dsimp only
    rw [if_neg]
    intro hcon
    rcases hcon with hcon | hcon
    · exact hd hcon
    · exact hdo hcon
  · have hfuel : loopFuel G = (loopFuel G - 2) + 1 + 1 := by unfold loopFuel; omega
    have hrec : G.nodes.length + 2 = (G.nodes.length + 1) + 1 := by omega
    by_cases hod : origin = destination
    · subst hod
      simp only [custom_fastest_path]
      rw [hfuel, hrec]
      simp [cfpLoop, reconstruct, ho]
    · simp only [custom_fastest_path]
      rw [hfuel]
      simp [cfpLoop, reconstruct, ho, hod]

end Machinery10

/-- C1: for distinct stations both present in the network and connected by
at least one walk, `find_fastest_route` returns a route whose path starts
at the origin, ends at the destination, and has at least one station. -/
theorem fastest_route_endpoints (G : Graph) (origin destination : Node) (p : Nat)
    (hwf : Wf G) (ho : origin ∈ G.nodes) (hd : destination ∈ G.nodes)
    (hne : origin ≠ destination) (hr : Reach G origin destination) :
    ∃ r, find_fastest_route G origin destination p = .ok (some r)
      ∧ r.path.head? = some origin ∧ r.path.getLast? = some destination
      ∧ 1 ≤ r.path.length := by
  obtain ⟨r, keys, ws, hfind, hhead, hlast, hlen, _⟩ := find_rich hwf p ho hd hne hr
  exact ⟨r, hfind, hhead, hlast, by omega⟩

/-- C3: for stations in different connected components, `find_fastest_route`
returns the explicit absence marker `None` (the `nx.NetworkXNoPath` raised
inside the search is caught), never an unhandled exception. -/
theorem disconnected_returns_none (G : Graph) (origin destination : Node) (p : Nat)
    (hwf : Wf G) (ho : origin ∈ G.nodes) (hd : destination ∈ G.nodes)
    (hnr : ¬ Reach G origin destination) :
    find_fastest_route G origin destination p = .ok none := by
  have h := custom_noreach (p := p) hwf ho hd hnr
  simp only [find_fastest_route]
  rw [h]

/-- Amended C2: a query whose origin or destination is absent from the
network makes `find_fastest_route` raise an uncaught `KeyError` (a generic
missing-key failure, not a distinguished unknown-station error), and it
never returns a normal result. -/
theorem unknown_station_raises_keyerror (G : Graph) (origin destination : Node) (p : Nat)
    (hwf : Wf G) (h : origin ∉ G.nodes ∨ destination ∉ G.nodes) :
    find_fastest_route G origin destination p = .error .keyError := by
  have hc := custom_absent (p := p) hwf h
  simp only [find_fastest_route]
  rw [hc]

section Machinery11

variable {G : Graph}

theorem find_same_station (G : Graph) (s : Node) (p : Nat) (hs : s ∈ G.nodes) :
    find_fastest_route G s s p = .ok (some
      { path := [s], lines_used := [], transfers := [], num_transfers := 0,
        total_stations := 1, total_time := 0, travel_time := 0, transfer_time := 0,
        segments := [] }) := by
  unfold find_fastest_route custom_fastest_path
  have hfuel : loopFuel G = (loopFuel G - 2) + 1 + 1 := by unfold loopFuel; omega
  have hrec : G.nodes.length + 2 = (G.nodes.length + 1) + 1 := by omega
  rw [hfuel, hrec]
  simp [cfpLoop, reconstruct, summarize, sumLoop, updateLastSeg, hs]

theorem find_absent_keyerror (hwf : Wf G) {origin destination : Node} {p : Nat}
    (h : origin ∉ G.nodes ∨ destination ∉ G.nodes) :
    find_fastest_route G origin destination p = .error .keyError := by
  have hc := custom_absent (p := p) hwf h
  simp only [find_fastest_route]
  rw [hc]

theorem find_no_reach (hwf : Wf G) {origin destination : Node} {p : Nat}
    (ho : origin ∈ G.nodes) (hd : destination ∈ G.nodes)
    (hnr : ¬ Reach G origin destination) :
    find_fastest_route G origin destination p = .ok none := by
  have h := custom_noreach (p := p) hwf ho hd hnr
  simp only [find_fastest_route]
  rw [h]

end Machinery11

/-- C7: the reported figures exclude the 10-unit tie-break bias: for every
successful query the returned `total_time` is the sum of the traversed
edges' base costs plus `num_transfers` times the raw penalty,
`transfer_time` is exactly `num_transfers` times the raw penalty, and
`travel_time` is the bias-free sum of base costs. -/
theorem reported_times_exclude_bias (G : Graph) (origin destination : Node) (p : Nat)
    (r : Route) (hwf : Wf G)
    (h : find_fastest_route G origin destination p = .ok (some r)) :
    ∃ keys ws, pathEdgeWeights G r.path keys = some ws
      ∧ r.total_time = ws.sum + r.num_transfers * p
      ∧ r.transfer_time = r.num_transfers * p
      ∧ r.travel_time = ws.sum := by
  by_cases ho : origin ∈ G.nodes
  · by_cases hod : origin = destination
    · subst hod
      have hz := find_same_station G origin p ho
      have heq := hz.symm.trans h
      simp only [Except.ok.injEq, Option.some.injEq] at heq
      subst heq
      exact ⟨[], [], rfl, by simp, by simp, by simp⟩
    · by_cases hd : destination ∈ G.nodes
      · by_cases hreach : Reach G origin destination
        · obtain ⟨r2, keys, ws, hfind, _, _, _, _, hpew, htot, htransf, htravel, _⟩ :=
            find_rich hwf p ho hd hod hreach
          have heq := hfind.symm.trans h
          simp only [Except.ok.injEq, Option.some.injEq] at heq
          subst heq
          exact ⟨keys, ws, hpew, htot, htransf, htravel⟩
        · have := find_no_reach (p := p) hwf ho hd hreach
          rw [this] at h
          simp at h
      · have := find_absent_keyerror (p := p) hwf (Or.inr hd : origin ∉ G.nodes ∨ destination ∉ G.nodes)
        rw [this] at h
        simp at h
  · have := find_absent_keyerror (p := p) hwf (Or.inl ho : origin ∉ G.nodes ∨ destination ∉ G.nodes)
    rw [this] at h
    simp at h

/-- C10: every successful route over at least two stations has a non-empty
segment list tiling the path: the first segment starts at the path head,
the last segment ends at the path tail, every segment is closed, there is
one segment per line used (`num_transfers + 1` of them), and the segment
times sum to `travel_time`. -/
theorem segments_tile_path (G : Graph) (origin destination : Node) (p : Nat)
    (r : Route) (hwf : Wf G)
    (h : find_fastest_route G origin destination p = .ok (some r))
    (hlen : 2 ≤ r.path.length) :
    r.segments ≠ []
    ∧ (r.segments.head?).map Segment.from_station = r.path.head?
    ∧ (r.segments.getLast?).map Segment.to_station = some r.path.getLast?
    ∧ (∀ sg ∈ r.segments, sg.to_station ≠ none)
    ∧ r.segments.length = r.num_transfers + 1
    ∧ r.segments.length = r.lines_used.length
    ∧ (r.segments.map Segment.time).sum = r.travel_time := by
  by_cases ho : origin ∈ G.nodes
  · by_cases hod : origin = destination
    · subst hod
      have hz := find_same_station G origin p ho
      have heq := hz.symm.trans h
      simp only [Except.ok.injEq, Option.some.injEq] at heq
      subst heq
      simp at hlen
    · by_cases hd : destination ∈ G.nodes
      · by_cases hreach : Reach G origin destination
        · obtain ⟨r2, keys, ws, hfind, hhead, hlast, _, _, _, _, _, _, hsegne,
              hheadseg, hlastseg, hallto, hseglen, hlineln, hsegsum, _⟩ :=
            find_rich hwf p ho hd hod hreach
          have heq := hfind.symm.trans h
          simp only [Except.ok.injEq, Option.some.injEq] at heq
          subst heq
          refine ⟨hsegne, ?_, ?_, hallto, hseglen, hlineln.symm, hsegsum⟩
          · rw [hheadseg, hhead]
          · rw [hlastseg, hlast]
        · have := find_no_reach (p := p) hwf ho hd hreach
          rw [this] at h
          simp at h
      · have := find_absent_keyerror (p := p) hwf (Or.inr hd : origin ∉ G.nodes ∨ destination ∉ G.nodes)
        rw [this] at h
        simp at h
  · have := find_absent_keyerror (p := p) hwf (Or.inl ho : origin ∉ G.nodes ∨ destination ∉ G.nodes)
    rw [this] at h
    simp at h

theorem reach_chain_A_E : Reach gChain "A" "E" :=
  Reach.tail (Reach.tail (Reach.tail (Reach.tail (Reach.refl "A")
    ⟨("B", 0, ⟨"Line 1", 100⟩), by decide, rfl⟩)
    ⟨("C", 0, ⟨"Line 1", 100⟩), by decide, rfl⟩)
    ⟨("D", 0, ⟨"Line 2", 100⟩), by decide, rfl⟩)
    ⟨("E", 0, ⟨"Line 2", 100⟩), by decide, rfl⟩

theorem gChainF_confined : ∀ x, Reach gChainF "A" x → x ∈ (["A", "B", "C", "D", "E"] : List Node) := by
  intro x hr
  induction hr with
  | refl => decide
  | tail hr hedge ih =>
    obtain ⟨t, ht, rfl⟩ := hedge
    have hx : ∀ b ∈ (["A", "B", "C", "D", "E"] : List Node),
        ∀ t2 ∈ adjFlat gChainF b, t2.1 ∈ (["A", "B", "C", "D", "E"] : List Node) := by decide
    exact hx _ ih t ht

theorem not_reach_A_F : ¬ Reach gChainF "A" "F" := by
  intro hr
  have := gChainF_confined "F" hr
  exact absurd this (by decide)

/-- C4: for a station in the network, querying origin == destination returns
the single-station zero-cost route with no transfers, no lines used and no
segments (the seeded queue entry is popped, matches the target at once, and
reconstruction stops at the source whose parent pointer is unset). -/
theorem same_station_zero_route (G : Graph) (s : Node) (p : Nat) (hs : s ∈ G.nodes) :
    find_fastest_route G s s p = .ok (some
      { path := [s], lines_used := [], transfers := [], num_transfers := 0,
        total_stations := 1, total_time := 0, travel_time := 0, transfer_time := 0,
        segments := [] }) :=
  find_same_station G s p hs

/-- Witness for C4 at station A of the chain network with the default
penalty 900. -/
theorem same_station_zero_route_witness :
    "A" ∈ gChain.nodes
  ∧ find_fastest_route gChain "A" "A" 900 = .ok (some
      { path := ["A"], lines_used := [], transfers := [], num_transfers := 0,
        total_stations := 1, total_time := 0, travel_time := 0, transfer_time := 0,
        segments := [] }) :=
  ⟨by decide, same_station_zero_route gChain "A" 900 (by decide)⟩

theorem chain_route_transfers (p : Nat) :
    ∃ r, find_fastest_route gChain "A" "E" p = .ok (some r) ∧ r.num_transfers = 1 := by
  have hkey : ¬ (200 + (100 + p + 10) + 100 < 200) := by omega
  have hf : loopFuel gChain = 10 := by decide
  simp only [find_fastest_route, custom_fastest_path, hf]
  simp [cfpLoop, reconstruct, summarize, sumLoop, relaxAll, relaxOne, adjFlat,
    Graph.adj, gChain, heappush, dijkstra_weight, isTransfer, ltInf, getEdgeData,
    updateLastSeg, hkey]

/-- Amended C6: on the spec's own §8 two-line property-test network (A-B-C
on Line 1, C-D-E on Line 2, each hop 100), the route for query (A, E) has
exactly one transfer at every penalty, so raising the penalty never
increases the transfer count there; on general networks the monotonicity
claim fails (see the counterexample on `gMono`). -/
theorem chain_penalty_transfers_monotone (p1 p2 : Nat) (hp : p1 ≤ p2) (r1 r2 : Route)
    (h1 : find_fastest_route gChain "A" "E" p1 = .ok (some r1))
    (h2 : find_fastest_route gChain "A" "E" p2 = .ok (some r2)) :
    r2.num_transfers ≤ r1.num_transfers := by
  obtain ⟨ra, hra, hna⟩ := chain_route_transfers p1
  obtain ⟨rb, hrb, hnb⟩ := chain_route_transfers p2
  have e1 := hra.symm.trans h1
  simp only [Except.ok.injEq, Option.some.injEq] at e1
  have e2 := hrb.symm.trans h2
  simp only [Except.ok.injEq, Option.some.injEq] at e2
  subst e1
  subst e2
  omega

/-- Witness for the amended C6 at penalties 0 and 900. -/
theorem chain_penalty_transfers_monotone_witness :
    (0 : Nat) ≤ 900
  ∧ find_fastest_route gChain "A" "E" 0 = .ok (some routeAE0)
  ∧ find_fastest_route gChain "A" "E" 900 = .ok (some routeAE900)
  ∧ routeAE900.num_transfers ≤ routeAE0.num_transfers :=
  ⟨by decide, by decide, by decide,
    chain_penalty_transfers_monotone 0 900 (by decide) routeAE0 routeAE900
      (by decide) (by decide)⟩

/-- Witness for C1 on the chain network for query (A, E). -/
theorem fastest_route_endpoints_witness :
    (Wf gChain ∧ "A" ∈ gChain.nodes ∧ "E" ∈ gChain.nodes ∧ ("A" : Node) ≠ "E")
  ∧ (∃ r, find_fastest_route gChain "A" "E" 900 = .ok (some r)
      ∧ r.path.head? = some "A" ∧ r.path.getLast? = some "E" ∧ 1 ≤ r.path.length) :=
  ⟨⟨by decide, by decide, by decide, by decide⟩,
    fastest_route_endpoints gChain "A" "E" 900 (by decide) (by decide) (by decide)
      (by decide) reach_chain_A_E⟩

/-- Witness for the amended C2: station Z is absent from the chain network. -/
theorem unknown_station_raises_keyerror_witness :
    (Wf gChain ∧ ("Z" : Node) ∉ gChain.nodes)
  ∧ find_fastest_route gChain "Z" "A" 900 = .error .keyError :=
  ⟨⟨by decide, by decide⟩,
    unknown_station_raises_keyerror gChain "Z" "A" 900 (by decide)
      (Or.inl (by decide))⟩

/-- Witness for C3: station F of `gChainF` is disconnected from A. -/
theorem disconnected_returns_none_witness :
    (Wf gChainF ∧ "A" ∈ gChainF.nodes ∧ "F" ∈ gChainF.nodes
      ∧ ¬ Reach gChainF "A" "F")
  ∧ find_fastest_route gChainF "A" "F" 900 = .ok none :=
  ⟨⟨by decide, by decide, by decide, not_reach_A_F⟩,
    disconnected_returns_none gChainF "A" "F" 900 (by decide) (by decide) (by decide)
      not_reach_A_F⟩

/-- Witness for C7 on the §8 scenario route. -/
theorem reported_times_exclude_bias_witness :
    (Wf gChain ∧ find_fastest_route gChain "A" "E" 50 = .ok (some routeAE))
  ∧ (∃ keys ws, pathEdgeWeights gChain routeAE.path keys = some ws
      ∧ routeAE.total_time = ws.sum + routeAE.num_transfers * 50
      ∧ routeAE.transfer_time = routeAE.num_transfers * 50
      ∧ routeAE.travel_time = ws.sum) :=
  ⟨⟨by decide, by decide⟩,
    reported_times_exclude_bias gChain "A" "E" 50 routeAE (by decide) (by decide)⟩

/-- Witness for C10 on the §8 scenario route. -/
theorem segments_tile_path_witness :
    (Wf gChain ∧ find_fastest_route gChain "A" "E" 50 = .ok (some routeAE)
      ∧ 2 ≤ routeAE.path.length)
  ∧ (routeAE.segments ≠ []
      ∧ (routeAE.segments.head?).map Segment.from_station = routeAE.path.head?
      ∧ (routeAE.segments.getLast?).map Segment.to_station = some routeAE.path.getLast?
      ∧ (∀ sg ∈ routeAE.segments, sg.to_station ≠ none)
      ∧ routeAE.segments.length = routeAE.num_transfers + 1
      ∧ routeAE.segments.length = routeAE.lines_used.length
      ∧ (routeAE.segments.map Segment.time).sum = routeAE.travel_time) :=
  ⟨⟨by decide, by decide, by decide⟩,
    segments_tile_path gChain "A" "E" 50 routeAE (by decide) (by decide) (by decide)⟩

end ODPair
